import Mathlib

/-!
The buffered tick writer of `contrib/polygon/handlers/writer.go`.

A shallow embedding of `writer.write`: the worker that takes packets off the
ingest queue, appends them to one bucket per `TimeBucketKey`, and on a timeout
turns every bucket into columns of a `ColumnSeriesMap` handed to
`executor.WriteCSM`.

The worker re-uses eight scratch slices across keys and across flush cycles and
hands them to `AddColumn` as Go slice values, so the embedding keeps Go's slice
semantics: a slice is a header (backing array, length, capacity) and the backing
arrays live in a heap.  Truncating with `s[:0]` keeps the backing array, and a
later `append` writes into it in place.
-/

namespace handlers

/-! ## Scalars, records, packets -/

/-- Go `int64`; the worker only copies these values. -/
abbrev int64 := Int

/-- Go `int32`; the worker only copies these values. -/
abbrev int32 := Int

/-- Go `float32`, represented by the integer value of its 32-bit IEEE-754 pattern:
the worker never computes with a price, it only copies it.
`10.0` is `0x41200000`, `10.1` is `0x4121999A`, `99.5` is `0x42C70000`. -/
abbrev float32 := Int

/-- Modelled from the spec: `io.TimeBucketKey` is declared outside the sources at
hand.  The spec's Destination Key is a value compared by value; its string form
(`symbol/timeframe/attribute-set`) stands for it. -/
abbrev TimeBucketKey := String

/-- The struct `trade` (writer.go 13-18). -/
structure trade where
  epoch : int64
  nanos : int32
  px : float32
  sz : int32
deriving DecidableEq, Repr

/-- The struct `quote` (writer.go 20-27). -/
structure quote where
  epoch : int64
  nanos : int32
  bidPx : float32
  askPx : float32
  bidSz : int32
  askSz : int32
deriving DecidableEq, Repr

/-- The dynamic content of `writePacket.data` (an `interface{}`): a `*quote`, a
`*trade`, or a value of any other dynamic type (the nil interface included).
A record pointer is represented by the record it points to. -/
inductive PacketData where
  | quote (q : quote)
  | trade (t : trade)
  | other
deriving DecidableEq, Repr

/-- The struct `writePacket` (writer.go 38-41); `tbk` is the key pointed to. -/
structure writePacket where
  tbk : TimeBucketKey
  data : PacketData
deriving DecidableEq, Repr

/-- The dynamic content of one value of `dataBuckets`: the worker stores
a `[]*quote` or a `[]*trade` there and nothing else.  A bucket's backing array is
referenced by that bucket alone, so the bucket is represented by its elements. -/
inductive Bucket where
  | quotes (b : List quote)
  | trades (b : List trade)
deriving DecidableEq, Repr

/-- The `len` of a bucket. -/
def Bucket.len : Bucket → Nat
  | .quotes b => b.length
  | .trades b => b.length

/-- Whether the bucket is a `[]*quote` (true) or a `[]*trade` (false). -/
def Bucket.isQuotes : Bucket → Bool
  | .quotes _ => true
  | .trades _ => false

/-! ## Go maps -/

/-- The Go map read `m[k]` with the comma-ok form. -/
def mapGet {β : Type} (k : TimeBucketKey) : List (TimeBucketKey × β) → Option β
  | [] => none
  | (k', v) :: m => if k' = k then some v else mapGet k m

/-- The Go map write `m[k] = v`: replaces the value of a present key, adds an
entry for an absent one. -/
def mapSet {β : Type} (k : TimeBucketKey) (v : β) :
    List (TimeBucketKey × β) → List (TimeBucketKey × β)
  | [] => [(k, v)]
  | (k', v') :: m => if k' = k then (k, v) :: m else (k', v') :: mapSet k v m

/-- The keys of a Go map. -/
def mapKeys {β : Type} (m : List (TimeBucketKey × β)) : List TimeBucketKey :=
  m.map Prod.fst

/-! ## Go slices -/

/-- A Go slice header.  Every slice of the worker starts at offset 0 of its
backing array (the only slice expression used is `s[:0]`), so the pointer is the
index of the backing array in the heap.  The nil slice has `len = cap = 0`. -/
structure Slice where
  arr : Nat
  len : Nat
  cap : Nat
deriving DecidableEq, Repr

/-- The nil slice, the zero value of the `var` block of `write`. -/
def Slice.nil : Slice := ⟨0, 0, 0⟩

/-- The slice expression `s[:0]`: same backing array and capacity, length 0. -/
def Slice.trim (s : Slice) : Slice := { s with len := 0 }

/-- The backing arrays allocated so far; a scalar cell holds an `Int`. -/
abbrev Heap := List (List Int)

/-- The elements `s[0], ..., s[len-1]` of a slice as the heap has them now. -/
def Heap.read (h : Heap) (s : Slice) : List Int :=
  (List.range s.len).map fun i => (h.getD s.arr []).getD i 0

/-- The capacity of the array allocated when `append` outgrows a slice.  Go only
promises a sufficiently large array; `grow` is the runtime's growth policy (new
capacity from the old one), a parameter of the embedding.  One policy serves
all eight scratch slices here, whereas Go's runtime also rounds by element size
(a nil `[]int64` grows to capacity 1, a nil `[]int32` or `[]float32` to 2); the
statements below use of a capacity only that it is at least the length. -/
def growslice (grow : Nat → Nat) (s : Slice) : Nat :=
  max (s.len + 1) (grow s.cap)

/-- The Go builtin `append(s, x)` for one element: written in place when the
capacity allows it, otherwise into a fresh array that receives a copy of the
elements of `s`. -/
def sliceAppend (grow : Nat → Nat) (h : Heap) (s : Slice) (x : Int) : Heap × Slice :=
  if s.len < s.cap then
    (h.set s.arr ((h.getD s.arr []).set s.len x), { s with len := s.len + 1 })
  else
    (h ++ [h.read s ++ x :: List.replicate (growslice grow s - (s.len + 1)) 0],
      ⟨h.length, s.len + 1, growslice grow s⟩)

/-! ## The column series map -/

/-- Modelled from the spec: `io.ColumnSeries` is declared outside the sources at
hand.  The spec's Column Batch maps a column name to a sequence of scalars; the
sequence recorded is the Go slice value passed to `AddColumn`. -/
abbrev ColumnSeries := List (String × Slice)

/-- Modelled from the spec: `io.ColumnSeriesMap` is declared outside the sources
at hand; it maps a Destination Key to its Column Batch. -/
abbrev ColumnSeriesMap := List (TimeBucketKey × ColumnSeries)

/-- Modelled from the spec: `io.NewColumnSeriesMap` is outside the sources at
hand; it gives the empty map. -/
def NewColumnSeriesMap : ColumnSeriesMap := []

/-- Modelled from the spec: `io.ColumnSeriesMap.AddColumn` is outside the sources
at hand.  It records `columnData` under `name` in the batch of `key`, creating
the batch when the key has none.  What the call passes is a Go slice value, a
header onto the scratch array (section 4.4 of the spec: the column arrays are
built from the reusable scratch storage), so the header is what is recorded. -/
def AddColumn (csm : ColumnSeriesMap) (key : TimeBucketKey) (name : String)
    (columnData : Slice) : ColumnSeriesMap :=
  mapSet key ((mapGet key csm).getD [] ++ [(name, columnData)]) csm

/-- What the Storage Sink is handed: for each key its columns, each column the
elements its slice has in the heap at the time of the call. -/
abbrev Batch := List (TimeBucketKey × List (String × List Int))

instance : DecidableEq Batch := inferInstance

/-- The column series map as the Storage Sink reads it through the heap. -/
def readCSM (h : Heap) (csm : ColumnSeriesMap) : Batch :=
  csm.map fun e => (e.1, e.2.map fun c => (c.1, h.read c.2))

/-! ## The worker -/

/-- The state of the worker between two passes of its loop: the buffer map
`w.dataBuckets`, the eight scratch slices of the `var` block of `write`, and the
heap holding their backing arrays.  (`csm` of the same block is assigned afresh
at the start of every flush cycle before it is read, so it carries nothing from
one pass to the next.) -/
structure WorkerState where
  dataBuckets : List (TimeBucketKey × Bucket)
  heap : Heap
  epoch : Slice
  nanos : Slice
  bidPx : Slice
  askPx : Slice
  px : Slice
  bidSz : Slice
  askSz : Slice
  sz : Slice
deriving DecidableEq, Repr

/-- The worker as `write` starts: the empty `dataBuckets` of the package variable
`w`, nil scratch slices, nothing allocated. -/
def WorkerState.init : WorkerState :=
  { dataBuckets := [], heap := [],
    epoch := Slice.nil, nanos := Slice.nil, bidPx := Slice.nil, askPx := Slice.nil,
    px := Slice.nil, bidSz := Slice.nil, askSz := Slice.nil, sz := Slice.nil }

/-- The branch `case m := <-w.c.Out()` (writer.go 67-87): the append step.
`none` is a Go panic: the single-value type assertions `bucket.([]*quote)` and
`bucket.([]*trade)` of lines 74 and 76 panic when the bucket has the other
dynamic type. -/
def writeRecv (st : WorkerState) (packet : writePacket) : Option WorkerState :=
  match mapGet packet.tbk st.dataBuckets with
  | some bucket =>
    match packet.data with
    | .quote q =>
      match bucket with
      | .quotes b =>
        some { st with dataBuckets := mapSet packet.tbk (.quotes (b ++ [q])) st.dataBuckets }
      | .trades _ => none
    | .trade t =>
      match bucket with
      | .trades b =>
        some { st with dataBuckets := mapSet packet.tbk (.trades (b ++ [t])) st.dataBuckets }
      | .quotes _ => none
    | .other => some st
  | none =>
    match packet.data with
    | .quote q => some { st with dataBuckets := mapSet packet.tbk (.quotes [q]) st.dataBuckets }
    | .trade t => some { st with dataBuckets := mapSet packet.tbk (.trades [t]) st.dataBuckets }
    | .other => some st

/-- The body of `for _, q := range b` (writer.go 99-104). -/
def appendQuote (grow : Nat → Nat) (st : WorkerState) (q : quote) : WorkerState :=
  let a1 := sliceAppend grow st.heap st.epoch q.epoch
  let a2 := sliceAppend grow a1.1 st.nanos q.nanos
  let a3 := sliceAppend grow a2.1 st.bidPx q.bidPx
  let a4 := sliceAppend grow a3.1 st.askPx q.askPx
  let a5 := sliceAppend grow a4.1 st.bidSz q.bidSz
  let a6 := sliceAppend grow a5.1 st.askSz q.askSz
  { st with heap := a6.1, epoch := a1.2, nanos := a2.2, bidPx := a3.2, askPx := a4.2,
            bidSz := a5.2, askSz := a6.2 }

/-- The body of `for _, t := range b` (writer.go 128-131). -/
def appendTrade (grow : Nat → Nat) (st : WorkerState) (t : trade) : WorkerState :=
  let a1 := sliceAppend grow st.heap st.epoch t.epoch
  let a2 := sliceAppend grow a1.1 st.nanos t.nanos
  let a3 := sliceAppend grow a2.1 st.px t.px
  let a4 := sliceAppend grow a3.1 st.sz t.sz
  { st with heap := a4.1, epoch := a1.2, nanos := a2.2, px := a3.2, sz := a4.2 }

/-- One pass of `for tbk, bucket := range w.dataBuckets` (writer.go 93-148), on
the worker state and the `csm` under construction. -/
def flushKey (grow : Nat → Nat) (s : WorkerState × ColumnSeriesMap) (tbk : TimeBucketKey) :
    WorkerState × ColumnSeriesMap :=
  match mapGet tbk s.1.dataBuckets with
  | none => s
  | some (.quotes b) =>
    let st := b.foldl (appendQuote grow) s.1
    if st.epoch.len > 0 then
      let csm := AddColumn s.2 tbk "Epoch" st.epoch
      let csm := AddColumn csm tbk "Nanoseconds" st.nanos
      let csm := AddColumn csm tbk "BidPrice" st.bidPx
      let csm := AddColumn csm tbk "AskPrice" st.askPx
      let csm := AddColumn csm tbk "BidSize" st.bidSz
      let csm := AddColumn csm tbk "AskSize" st.askSz
      -- trim the slices (writer.go 116-122); line 120 reads `askPx = bidPx[:0]`
      let epoch := st.epoch.trim
      let nanos := st.nanos.trim
      let bidPx := st.bidPx.trim
      let bidSz := st.bidSz.trim
      let askPx := bidPx.trim
      let askSz := st.askSz.trim
      ({ st with epoch := epoch, nanos := nanos, bidPx := bidPx, bidSz := bidSz,
                 askPx := askPx, askSz := askSz,
                 dataBuckets := mapSet tbk (.quotes []) st.dataBuckets }, csm)
    else (st, s.2)
  | some (.trades b) =>
    let st := b.foldl (appendTrade grow) s.1
    if st.epoch.len > 0 then
      let csm := AddColumn s.2 tbk "Epoch" st.epoch
      let csm := AddColumn csm tbk "Nanoseconds" st.nanos
      let csm := AddColumn csm tbk "Price" st.px
      let csm := AddColumn csm tbk "Size" st.sz
      -- trim the slices (writer.go 141-145)
      ({ st with epoch := st.epoch.trim, nanos := st.nanos.trim, px := st.px.trim,
                 sz := st.sz.trim,
                 dataBuckets := mapSet tbk (.trades []) st.dataBuckets }, csm)
    else (st, s.2)

/-- The locked part of the branch `case <-time.After(w.interval)` (writer.go
90-150).  `order` is the order in which `range w.dataBuckets` yields the keys,
which Go leaves unspecified. -/
def flushLoop (grow : Nat → Nat) (order : List TimeBucketKey) (st : WorkerState) :
    WorkerState × ColumnSeriesMap :=
  order.foldl (flushKey grow) (st, NewColumnSeriesMap)

/-- The result of one flush cycle: the worker state it leaves, the batch map
handed to the Storage Sink, and whether an error was logged. -/
structure FlushResult where
  state : WorkerState
  batch : Batch
  logged : Bool
deriving DecidableEq, Repr

/-- The branch `case <-time.After(w.interval)` (writer.go 89-154): the flush
cycle.  `WriteCSM` is the Storage Sink, `executor.WriteCSM`, reduced to whether
it returns an error (`true`) for the map it is handed. -/
def writeTimeout (grow : Nat → Nat) (WriteCSM : Batch → Bool) (order : List TimeBucketKey)
    (st : WorkerState) : FlushResult :=
  let r := flushLoop grow order st
  let batch := readCSM r.1.heap r.2
  { state := r.1, batch := batch, logged := WriteCSM batch }

/-- What `select` yields in one pass of the worker loop. -/
inductive Event where
  | packet (p : writePacket)
  | timeout (order : List TimeBucketKey)
deriving DecidableEq, Repr

/-- The loop `for { select { ... } }` of `write` (writer.go 65-156) along a finite
sequence of select outcomes: the worker state at the end, `none` when an append
step panicked on the way, and the batch maps handed to the Storage Sink up to
there, oldest first. -/
def write (grow : Nat → Nat) (WriteCSM : Batch → Bool) :
    List Event → WorkerState → Option WorkerState × List Batch
  | [], st => (some st, [])
  | .packet p :: evs, st =>
    match writeRecv st p with
    | none => (none, [])
    | some st' => write grow WriteCSM evs st'
  | .timeout order :: evs, st =>
    let r := writeTimeout grow WriteCSM order st
    let rest := write grow WriteCSM evs r.state
    (rest.1, r.batch :: rest.2)

/-! ## Reachable states and the vocabulary of the statements -/

/-- All eight scratch slices have length 0, as they do between two keys of a
flush cycle and between two passes of the worker loop. -/
def ScratchClear (st : WorkerState) : Prop :=
  st.epoch.len = 0 ∧ st.nanos.len = 0 ∧ st.bidPx.len = 0 ∧ st.askPx.len = 0 ∧
  st.px.len = 0 ∧ st.bidSz.len = 0 ∧ st.askSz.len = 0 ∧ st.sz.len = 0

instance (st : WorkerState) : Decidable (ScratchClear st) := by
  unfold ScratchClear; exact inferInstance

/-- The order `order` is one in which `range` can yield the keys of `m`: every
key of the map exactly once. -/
def RangeOrder (order : List TimeBucketKey) (m : List (TimeBucketKey × Bucket)) : Prop :=
  order.Perm (mapKeys m)

/-- The worker states that `write` passes through, starting from
`WorkerState.init`: after an append step that did not panic, and after a flush
cycle whose `range` yielded the keys in some order. -/
inductive Reachable (grow : Nat → Nat) : WorkerState → Prop where
  | init : Reachable grow WorkerState.init
  | recv {st st' : WorkerState} (p : writePacket) :
      Reachable grow st → writeRecv st p = some st' → Reachable grow st'
  | timeout {st : WorkerState} (order : List TimeBucketKey) :
      Reachable grow st → RangeOrder order st.dataBuckets →
      Reachable grow (flushLoop grow order st).1

/-- The column names of the schema of a bucket's variant, in the order of the
`AddColumn` calls (writer.go 108-113 and 135-138). -/
def Bucket.columnNames : Bucket → List String
  | .quotes _ => ["Epoch", "Nanoseconds", "BidPrice", "AskPrice", "BidSize", "AskSize"]
  | .trades _ => ["Epoch", "Nanoseconds", "Price", "Size"]

/-- The bucket a flush leaves in place of `b`: `b[:0]`, of the same dynamic type. -/
def Bucket.drained : Bucket → Bucket
  | .quotes _ => .quotes []
  | .trades _ => .trades []

/-- A slice is in order in a heap: its length is within its capacity, and unless
the capacity is 0 its backing array is allocated and has the capacity's size. -/
def SliceOK (h : Heap) (s : Slice) : Prop :=
  s.len ≤ s.cap ∧ (s.cap = 0 ∨ (s.arr < h.length ∧ (h.getD s.arr []).length = s.cap))

/-- Two slices do not share a backing array. -/
def Apart (s t : Slice) : Prop := s.cap = 0 ∨ t.cap = 0 ∨ s.arr ≠ t.arr

/-- Four slices are in order in a heap and no two of them share a backing
array. -/
def QuadOK (h : Heap) (a b c d : Slice) : Prop :=
  (SliceOK h a ∧ SliceOK h b ∧ SliceOK h c ∧ SliceOK h d) ∧
  (Apart a b ∧ Apart a c ∧ Apart a d) ∧ (Apart b c ∧ Apart b d ∧ Apart c d)

/-- The four scratch slices of the trade branch, `epoch`, `nanos`, `px`, `sz`,
are in order in the worker's heap and pairwise apart. -/
def TradeScratchOK (st : WorkerState) : Prop :=
  QuadOK st.heap st.epoch st.nanos st.px st.sz

/-! ## Reading the emitted batches, and the records of the scenarios -/

/-- The column `name` of the batch of key `k` in a batch map handed to the
Storage Sink; empty when the map has no such column. -/
def Batch.column (batch : Batch) (k : TimeBucketKey) (name : String) : List Int :=
  match mapGet k batch with
  | none => []
  | some cols => ((cols.find? fun c => c.1 = name).map Prod.snd).getD []

/-- The column `name` of key `k` concatenated over successive flush cycles. -/
def columnOver (batches : List Batch) (k : TimeBucketKey) (name : String) : List Int :=
  batches.foldr (fun batch acc => batch.column k name ++ acc) []

/-- A growth policy for the examples: the capacity doubles (Go's rule for small
slices, before the rounding up to an allocation size class). -/
def growDouble (c : Nat) : Nat := 2 * c

/-- A Storage Sink that reports no error. -/
def sinkOk : Batch → Bool := fun _ => false

/-- A Storage Sink that reports an error for every batch map. -/
def sinkFail : Batch → Bool := fun _ => true

/-- The trade of the scenario: epoch 2000, price 99.5, size 10. -/
def exTrade : trade := ⟨2000, 0, 0x42C70000, 10⟩

/-- A second trade: epoch 2001, price 10.0, size 3. -/
def exTrade2 : trade := ⟨2001, 1, 0x41200000, 3⟩

/-- The quote of the scenario at a given epoch: bid 10.0, ask 10.1, sizes 5 and 7. -/
def exQuote (epoch : int64) : quote := ⟨epoch, 0, 0x41200000, 0x4121999A, 5, 7⟩

/-- The worker after one `exQuote 1000` arrived under key `K`. -/
def stOneQuote : WorkerState :=
  { WorkerState.init with dataBuckets := [("K", .quotes [exQuote 1000])] }

/-- The worker after one `exTrade` arrived under key `T`. -/
def stOneTrade : WorkerState :=
  { WorkerState.init with dataBuckets := [("T", .trades [exTrade])] }

/-! ## Counting the records of a run -/

/-- Whether the packet data is a record the append step stores: a `*quote` or a
`*trade`. -/
def PacketData.isRecord : PacketData → Bool
  | .quote _ => true
  | .trade _ => true
  | .other => false

/-- The number of Trade and Quote records submitted under key `k` along a
sequence of select outcomes. -/
def submittedUnder (k : TimeBucketKey) : List Event → Nat
  | [] => 0
  | .packet p :: evs =>
    (if p.tbk = k ∧ p.data.isRecord = true then 1 else 0) + submittedUnder k evs
  | .timeout _ :: evs => submittedUnder k evs

/-- The current length of the buffer of key `k`, 0 when the key has no buffer. -/
def bufferLen (k : TimeBucketKey) (st : WorkerState) : Nat :=
  match mapGet k st.dataBuckets with
  | none => 0
  | some b => b.len

/-- Every flush cycle of the run ranges over the keys the buffer map has at that
moment, each exactly once. -/
def OrdersOK (grow : Nat → Nat) : List Event → WorkerState → Prop
  | [], _ => True
  | .packet p :: evs, st =>
    match writeRecv st p with
    | none => True
    | some st' => OrdersOK grow evs st'
  | .timeout order :: evs, st =>
    RangeOrder order st.dataBuckets ∧ OrdersOK grow evs (flushLoop grow order st).1

/-- The worker after `exQuote 1000` arrived under `K` and `exTrade2` under `T`. -/
def stQuoteAndTrade : WorkerState :=
  { WorkerState.init with
    dataBuckets := [("K", .quotes [exQuote 1000]), ("T", .trades [exTrade2])] }

/-! ## The entry point `Write` and its callers -/

/-- The part of the process that `Write` touches (writer.go 29-36 and 159-165):
whether the package variable `once` has run its function, how many goroutines
`go w.write()` has started, and the packets put on the channel `w.c`, in
order. -/
structure Process where
  onceDone : Bool
  workers : Nat
  queue : List writePacket
deriving DecidableEq, Repr

/-- The process before any call to `Write`. -/
def Process.init : Process := ⟨false, 0, []⟩

/-- The statement `once.Do(func() { go w.write() })` (writer.go 160-162).
`sync.Once` is the Go library's; by its contract `Do` calls the function if and
only if `Do` is being called for the first time, and calls of `Do` do not
overlap, so the statement is one atomic step. -/
def onceDo (p : Process) : Process :=
  if p.onceDone then p else { p with onceDone := true, workers := p.workers + 1 }

/-- The statement `w.c.In() <- pkt` (writer.go 164) on the infinite channel. -/
def chanSend (p : Process) (pkt : writePacket) : Process :=
  { p with queue := p.queue ++ [pkt] }

/-- The body of `Write` (writer.go 160-164) as its two statements in order:
`once.Do(func() { go w.write() })`, then `w.c.In() <- pkt`. -/
def WriteSteps (pkt : writePacket) : List (Process → Process) :=
  [onceDo, fun p => chanSend p pkt]

/-- The function `Write` (writer.go 159-165) run without interruption: its
statements one after the other. -/
def Write (p : Process) (pkt : writePacket) : Process :=
  (WriteSteps pkt).foldl (fun q f => f q) p

/-- Concurrent calls of `Write`: the process, and for each call how many
statements of `WriteSteps` it has executed: 0 before `once.Do`, 1 between
`once.Do` and the send, 2 returned. -/
structure Callers where
  proc : Process
  pcs : List Nat
deriving DecidableEq, Repr

/-- The callers as the calls start, none of them past `once.Do`. -/
def Callers.init (calls : List writePacket) : Callers :=
  ⟨Process.init, calls.map fun _ => 0⟩

/-- The scheduler lets call `i` execute its next statement of `Write`; nothing
happens when there is no such call or it has returned. -/
def stepCall (calls : List writePacket) (c : Callers) (i : Nat) : Callers :=
  match c.pcs[i]?, calls[i]? with
  | some pc, some pkt =>
    match (WriteSteps pkt)[pc]? with
    | some f => { proc := f c.proc, pcs := c.pcs.set i (pc + 1) }
    | none => c
  | _, _ => c

/-- The calls `calls` of `Write` run concurrently under the schedule `sched`, the
sequence of the calls chosen to take a step. -/
def runCalls (calls : List writePacket) (sched : List Nat) : Callers :=
  sched.foldl (stepCall calls) (Callers.init calls)

/-- What every schedule keeps: the number of workers started is 1 or 0 according
to `once`, and a call past `once.Do` means `once` has run. -/
def CallersInv (c : Callers) : Prop :=
  c.proc.workers = (if c.proc.onceDone then 1 else 0) ∧
  ∀ i, 1 ≤ c.pcs.getD i 0 → c.proc.onceDone = true

/-! ## The values a batch can hold -/

/-- The field values of a quote, as the scalars the worker copies. -/
def quote.fields (q : quote) : List Int :=
  [q.epoch, q.nanos, q.bidPx, q.askPx, q.bidSz, q.askSz]

/-- The field values of a trade. -/
def trade.fields (t : trade) : List Int :=
  [t.epoch, t.nanos, t.px, t.sz]

/-- The field values of the record a packet carries; none for a packet that is
neither a quote nor a trade. -/
def PacketData.fields : PacketData → List Int
  | .quote q => q.fields
  | .trade t => t.fields
  | .other => []

/-- The value `x` is a field of a record held in the bucket. -/
def Bucket.HasField (b : Bucket) (x : Int) : Prop :=
  match b with
  | .quotes qs => ∃ q ∈ qs, x ∈ q.fields
  | .trades ts => ∃ t ∈ ts, x ∈ t.fields

/-- The value `x` is a field of a record buffered in the worker state, under some
key. -/
def Buffered (st : WorkerState) (x : Int) : Prop :=
  ∃ k b, mapGet k st.dataBuckets = some b ∧ b.HasField x

/-- The value `x` is a field of a record submitted along the sequence of select
outcomes, under some key. -/
def SubmittedField (evs : List Event) (x : Int) : Prop :=
  ∃ p, Event.packet p ∈ evs ∧ x ∈ p.data.fields

/-- A slice is in order in the heap and every element it reads satisfies `V`. -/
def Good (V : Int → Prop) (h : Heap) (s : Slice) : Prop :=
  SliceOK h s ∧ ∀ y ∈ h.read s, V y

/-- Going from heap `h` to heap `h'` keeps every slice good. -/
def HeapStep (V : Int → Prop) (h h' : Heap) : Prop :=
  ∀ t, Good V h t → Good V h' t

/-- All eight scratch slices of the worker are good. -/
def ScratchGood (V : Int → Prop) (st : WorkerState) : Prop :=
  (Good V st.heap st.epoch ∧ Good V st.heap st.nanos ∧ Good V st.heap st.bidPx ∧
    Good V st.heap st.askPx) ∧
  (Good V st.heap st.px ∧ Good V st.heap st.bidSz ∧ Good V st.heap st.askSz ∧
    Good V st.heap st.sz)

/-- Every column recorded in the column series map is good. -/
def CsmGood (V : Int → Prop) (h : Heap) (csm : ColumnSeriesMap) : Prop :=
  ∀ k cols c, mapGet k csm = some cols → c ∈ cols → Good V h c.2

/-- Every field of every buffered record satisfies `V`. -/
def BucketsIn (V : Int → Prop) (st : WorkerState) : Prop :=
  ∀ k b y, mapGet k st.dataBuckets = some b → b.HasField y → V y

/-! ## Go maps: reads after writes -/

theorem mapGet_mapSet_self {β : Type} (k : TimeBucketKey) (v : β) (m : List (TimeBucketKey × β)) :
    mapGet k (mapSet k v m) = some v := by
  induction m with
  | nil => simp [mapSet, mapGet]
  | cons e m ih =>
    obtain ⟨k', v'⟩ := e
    by_cases h : k' = k <;> simp [mapSet, mapGet, h, ih]

theorem mapGet_mapSet_of_ne {β : Type} {k k' : TimeBucketKey} (h : k' ≠ k) (v : β)
    (m : List (TimeBucketKey × β)) : mapGet k' (mapSet k v m) = mapGet k' m := by
  induction m with
  | nil => simp [mapSet, mapGet, Ne.symm h]
  | cons e m ih =>
    obtain ⟨k0, v0⟩ := e
    by_cases h0 : k0 = k
    · subst h0
      simp [mapSet, mapGet, Ne.symm h]
    · by_cases h1 : k0 = k'
      · subst h1
        simp [mapSet, mapGet, h0]
      · simp [mapSet, mapGet, h0, h1, ih]

theorem mem_mapKeys_iff {β : Type} (k : TimeBucketKey) (m : List (TimeBucketKey × β)) :
    k ∈ mapKeys m ↔ ∃ v, mapGet k m = some v := by
  induction m with
  | nil => simp [mapKeys, mapGet]
  | cons e m ih =>
    obtain ⟨k0, v0⟩ := e
    by_cases h0 : k0 = k
    · simp [mapKeys, mapGet, h0]
    · have : k ≠ k0 := fun h => h0 h.symm
      simp only [mapKeys] at ih
      simp [mapKeys, mapGet, h0, this, ih]

theorem mapKeys_mapSet_of_mem {β : Type} {k : TimeBucketKey} (v : β)
    {m : List (TimeBucketKey × β)} (h : k ∈ mapKeys m) : mapKeys (mapSet k v m) = mapKeys m := by
  induction m with
  | nil => simp [mapKeys] at h
  | cons e m ih =>
    obtain ⟨k0, v0⟩ := e
    by_cases h0 : k0 = k
    · simp [mapKeys, mapSet, h0]
    · have hk : k ∈ mapKeys m := by
        have : k ≠ k0 := fun h => h0 h.symm
        simpa [mapKeys, this] using h
      have := ih hk
      simp only [mapKeys] at this
      simp [mapKeys, mapSet, h0, this]

theorem mapKeys_mapSet_of_not_mem {β : Type} {k : TimeBucketKey} (v : β)
    {m : List (TimeBucketKey × β)} (h : k ∉ mapKeys m) :
    mapKeys (mapSet k v m) = mapKeys m ++ [k] := by
  induction m with
  | nil => simp [mapKeys, mapSet]
  | cons e m ih =>
    obtain ⟨k0, v0⟩ := e
    have h0 : k0 ≠ k := by
      intro h0; apply h; simp [mapKeys, h0]
    have hk : k ∉ mapKeys m := by
      intro hk; apply h; simp only [mapKeys] at hk; simp [mapKeys, hk]
    have := ih hk
    simp only [mapKeys] at this
    simp [mapKeys, mapSet, h0, this]

theorem mapGet_map_snd {β γ : Type} (f : β → γ) (k : TimeBucketKey)
    (m : List (TimeBucketKey × β)) :
    mapGet k (m.map fun e => (e.1, f e.2)) = (mapGet k m).map f := by
  induction m with
  | nil => simp [mapGet]
  | cons e m ih =>
    obtain ⟨k0, v0⟩ := e
    by_cases h0 : k0 = k <;> simp [mapGet, h0, ih]

/-! ## Slices and the per-record loops -/

theorem Heap.read_length (h : Heap) (s : Slice) : (h.read s).length = s.len := by
  simp [Heap.read]

theorem sliceAppend_len (grow : Nat → Nat) (h : Heap) (s : Slice) (x : Int) :
    (sliceAppend grow h s x).2.len = s.len + 1 := by
  unfold sliceAppend
  split <;> rfl

theorem appendQuote_fields (grow : Nat → Nat) (st : WorkerState) (q : quote) :
    (appendQuote grow st q).dataBuckets = st.dataBuckets ∧
    (appendQuote grow st q).epoch.len = st.epoch.len + 1 ∧
    (appendQuote grow st q).nanos.len = st.nanos.len + 1 ∧
    (appendQuote grow st q).bidPx.len = st.bidPx.len + 1 ∧
    (appendQuote grow st q).askPx.len = st.askPx.len + 1 ∧
    (appendQuote grow st q).bidSz.len = st.bidSz.len + 1 ∧
    (appendQuote grow st q).askSz.len = st.askSz.len + 1 ∧
    (appendQuote grow st q).px = st.px ∧ (appendQuote grow st q).sz = st.sz := by
  simp [appendQuote, sliceAppend_len]

theorem appendTrade_fields (grow : Nat → Nat) (st : WorkerState) (t : trade) :
    (appendTrade grow st t).dataBuckets = st.dataBuckets ∧
    (appendTrade grow st t).epoch.len = st.epoch.len + 1 ∧
    (appendTrade grow st t).nanos.len = st.nanos.len + 1 ∧
    (appendTrade grow st t).px.len = st.px.len + 1 ∧
    (appendTrade grow st t).sz.len = st.sz.len + 1 ∧
    (appendTrade grow st t).bidPx = st.bidPx ∧ (appendTrade grow st t).askPx = st.askPx ∧
    (appendTrade grow st t).bidSz = st.bidSz ∧ (appendTrade grow st t).askSz = st.askSz := by
  simp [appendTrade, sliceAppend_len]

theorem foldl_appendQuote_fields (grow : Nat → Nat) (b : List quote) (st : WorkerState) :
    (b.foldl (appendQuote grow) st).dataBuckets = st.dataBuckets ∧
    (b.foldl (appendQuote grow) st).epoch.len = st.epoch.len + b.length ∧
    (b.foldl (appendQuote grow) st).nanos.len = st.nanos.len + b.length ∧
    (b.foldl (appendQuote grow) st).bidPx.len = st.bidPx.len + b.length ∧
    (b.foldl (appendQuote grow) st).askPx.len = st.askPx.len + b.length ∧
    (b.foldl (appendQuote grow) st).bidSz.len = st.bidSz.len + b.length ∧
    (b.foldl (appendQuote grow) st).askSz.len = st.askSz.len + b.length ∧
    (b.foldl (appendQuote grow) st).px = st.px ∧ (b.foldl (appendQuote grow) st).sz = st.sz := by
  induction b generalizing st with
  | nil => simp
  | cons q b ih =>
    obtain ⟨h0, h1, h2, h3, h4, h5, h6, h7, h8⟩ := ih (appendQuote grow st q)
    obtain ⟨g0, g1, g2, g3, g4, g5, g6, g7, g8⟩ := appendQuote_fields grow st q
    simp only [List.foldl_cons, List.length_cons]
    refine ⟨by rw [h0, g0], by omega, by omega, by omega, by omega, by omega, by omega,
      by rw [h7, g7], by rw [h8, g8]⟩

theorem foldl_appendTrade_fields (grow : Nat → Nat) (b : List trade) (st : WorkerState) :
    (b.foldl (appendTrade grow) st).dataBuckets = st.dataBuckets ∧
    (b.foldl (appendTrade grow) st).epoch.len = st.epoch.len + b.length ∧
    (b.foldl (appendTrade grow) st).nanos.len = st.nanos.len + b.length ∧
    (b.foldl (appendTrade grow) st).px.len = st.px.len + b.length ∧
    (b.foldl (appendTrade grow) st).sz.len = st.sz.len + b.length ∧
    (b.foldl (appendTrade grow) st).bidPx = st.bidPx ∧
    (b.foldl (appendTrade grow) st).askPx = st.askPx ∧
    (b.foldl (appendTrade grow) st).bidSz = st.bidSz ∧
    (b.foldl (appendTrade grow) st).askSz = st.askSz := by
  induction b generalizing st with
  | nil => simp
  | cons t b ih =>
    obtain ⟨h0, h1, h2, h3, h4, h5, h6, h7, h8⟩ := ih (appendTrade grow st t)
    obtain ⟨g0, g1, g2, g3, g4, g5, g6, g7, g8⟩ := appendTrade_fields grow st t
    simp only [List.foldl_cons, List.length_cons]
    refine ⟨by rw [h0, g0], by omega, by omega, by omega, by omega, by rw [h5, g5],
      by rw [h6, g6], by rw [h7, g7], by rw [h8, g8]⟩

/-! ## The column series map: reads after `AddColumn` -/

theorem mapGet_AddColumn_self (csm : ColumnSeriesMap) (key : TimeBucketKey) (name : String)
    (c : Slice) :
    mapGet key (AddColumn csm key name c) = some ((mapGet key csm).getD [] ++ [(name, c)]) := by
  simp [AddColumn, mapGet_mapSet_self]

theorem mapGet_AddColumn_of_ne (csm : ColumnSeriesMap) {key k : TimeBucketKey} (h : k ≠ key)
    (name : String) (c : Slice) : mapGet k (AddColumn csm key name c) = mapGet k csm := by
  simp [AddColumn, mapGet_mapSet_of_ne h]

theorem mapGet_readCSM (h : Heap) (csm : ColumnSeriesMap) (k : TimeBucketKey) :
    mapGet k (readCSM h csm) = (mapGet k csm).map fun cs => cs.map fun c => (c.1, h.read c.2) := by
  unfold readCSM
  exact mapGet_map_snd _ k csm

/-! ## One key of a flush cycle -/

theorem Bucket.drained_len (b : Bucket) : b.drained.len = 0 := by
  cases b <;> rfl

theorem Bucket.drained_isQuotes (b : Bucket) : b.drained.isQuotes = b.isQuotes := by
  cases b <;> rfl

theorem flushKey_absent (grow : Nat → Nat) (s : WorkerState × ColumnSeriesMap)
    (tbk : TimeBucketKey) (h : mapGet tbk s.1.dataBuckets = none) : flushKey grow s tbk = s := by
  simp [flushKey, h]

theorem flushKey_dataBuckets (grow : Nat → Nat) (s : WorkerState × ColumnSeriesMap)
    (tbk : TimeBucketKey) :
    (flushKey grow s tbk).1.dataBuckets = s.1.dataBuckets ∨
    ∃ b, mapGet tbk s.1.dataBuckets = some b ∧
      (flushKey grow s tbk).1.dataBuckets = mapSet tbk b.drained s.1.dataBuckets := by
  unfold flushKey
  dsimp only
  split
  · exact Or.inl rfl
  · next b hb =>
    split
    · right
      exact ⟨_, hb, by simp [(foldl_appendQuote_fields grow b s.1).1, Bucket.drained]⟩
    · left
      exact (foldl_appendQuote_fields grow b s.1).1
  · next b hb =>
    split
    · right
      exact ⟨_, hb, by simp [(foldl_appendTrade_fields grow b s.1).1, Bucket.drained]⟩
    · left
      exact (foldl_appendTrade_fields grow b s.1).1

theorem flushKey_csm_of_ne (grow : Nat → Nat) (s : WorkerState × ColumnSeriesMap)
    {tbk k : TimeBucketKey} (h : k ≠ tbk) :
    mapGet k (flushKey grow s tbk).2 = mapGet k s.2 := by
  unfold flushKey
  dsimp only
  split
  · rfl
  · split
    · simp [mapGet_AddColumn_of_ne _ h]
    · rfl
  · split
    · simp [mapGet_AddColumn_of_ne _ h]
    · rfl

theorem flushKey_bucket_of_ne (grow : Nat → Nat) (s : WorkerState × ColumnSeriesMap)
    {tbk k : TimeBucketKey} (h : k ≠ tbk) :
    mapGet k (flushKey grow s tbk).1.dataBuckets = mapGet k s.1.dataBuckets := by
  rcases flushKey_dataBuckets grow s tbk with h1 | ⟨b, _, h1⟩
  · rw [h1]
  · rw [h1, mapGet_mapSet_of_ne h]

theorem flushKey_clear (grow : Nat → Nat) (s : WorkerState × ColumnSeriesMap)
    (tbk : TimeBucketKey) (hc : ScratchClear s.1) : ScratchClear (flushKey grow s tbk).1 := by
  obtain ⟨c1, c2, c3, c4, c5, c6, c7, c8⟩ := hc
  unfold flushKey
  dsimp only
  split
  · exact ⟨c1, c2, c3, c4, c5, c6, c7, c8⟩
  · next b hb =>
    obtain ⟨h0, h1, h2, h3, h4, h5, h6, h7, h8⟩ := foldl_appendQuote_fields grow b s.1
    split
    · simp [ScratchClear, Slice.trim, h7, h8, c5, c8]
    · next hlen =>
      have hb0 : b.length = 0 := by omega
      simp only [ScratchClear, h7, h8]
      omega
  · next b hb =>
    obtain ⟨h0, h1, h2, h3, h4, h5, h6, h7, h8⟩ := foldl_appendTrade_fields grow b s.1
    split
    · simp [ScratchClear, Slice.trim, h5, h6, h7, h8, c3, c4, c6, c7]
    · next hlen =>
      have hb0 : b.length = 0 := by omega
      simp only [ScratchClear, h5, h6, h7, h8]
      omega

theorem flushKey_empty (grow : Nat → Nat) (s : WorkerState × ColumnSeriesMap)
    (tbk : TimeBucketKey) (hc : ScratchClear s.1) {b : Bucket}
    (hb : mapGet tbk s.1.dataBuckets = some b) (h0 : b.len = 0) : flushKey grow s tbk = s := by
  obtain ⟨c1, -⟩ := hc
  cases b with
  | quotes b =>
    have : b = [] := List.length_eq_zero.mp h0
    subst this
    simp [flushKey, hb, c1]
  | trades b =>
    have : b = [] := List.length_eq_zero.mp h0
    subst this
    simp [flushKey, hb, c1]

theorem flushKey_nonempty (grow : Nat → Nat) (s : WorkerState × ColumnSeriesMap)
    (tbk : TimeBucketKey) (hc : ScratchClear s.1) {b : Bucket}
    (hb : mapGet tbk s.1.dataBuckets = some b) (h0 : 0 < b.len) :
    mapGet tbk (flushKey grow s tbk).1.dataBuckets = some b.drained ∧
    ∃ cols : ColumnSeries,
      mapGet tbk (flushKey grow s tbk).2 = some ((mapGet tbk s.2).getD [] ++ cols) ∧
      cols.map Prod.fst = b.columnNames ∧ ∀ c ∈ cols, c.2.len = b.len := by
  obtain ⟨c1, c2, c3, c4, c5, c6, c7, c8⟩ := hc
  cases b with
  | quotes b =>
    obtain ⟨h0', h1, h2, h3, h4, h5, h6, h7, h8⟩ := foldl_appendQuote_fields grow b s.1
    have hpos : (b.foldl (appendQuote grow) s.1).epoch.len > 0 := by
      simp only [Bucket.len] at h0; omega
    simp only [flushKey, hb, hpos, if_true]
    refine ⟨by simp [mapGet_mapSet_self, Bucket.drained],
      [("Epoch", (b.foldl (appendQuote grow) s.1).epoch),
       ("Nanoseconds", (b.foldl (appendQuote grow) s.1).nanos),
       ("BidPrice", (b.foldl (appendQuote grow) s.1).bidPx),
       ("AskPrice", (b.foldl (appendQuote grow) s.1).askPx),
       ("BidSize", (b.foldl (appendQuote grow) s.1).bidSz),
       ("AskSize", (b.foldl (appendQuote grow) s.1).askSz)], ?_, ?_, ?_⟩
    · simp [mapGet_AddColumn_self]
    · rfl
    · intro c hcm
      simp only [List.mem_cons, List.mem_singleton, List.not_mem_nil, or_false] at hcm
      simp only [Bucket.len]
      rcases hcm with h | h | h | h | h | h <;> subst h <;> simp only <;> omega
  | trades b =>
    obtain ⟨h0', h1, h2, h3, h4, h5, h6, h7, h8⟩ := foldl_appendTrade_fields grow b s.1
    have hpos : (b.foldl (appendTrade grow) s.1).epoch.len > 0 := by
      simp only [Bucket.len] at h0; omega
    simp only [flushKey, hb, hpos, if_true]
    refine ⟨by simp [mapGet_mapSet_self, Bucket.drained],
      [("Epoch", (b.foldl (appendTrade grow) s.1).epoch),
       ("Nanoseconds", (b.foldl (appendTrade grow) s.1).nanos),
       ("Price", (b.foldl (appendTrade grow) s.1).px),
       ("Size", (b.foldl (appendTrade grow) s.1).sz)], ?_, ?_, ?_⟩
    · simp [mapGet_AddColumn_self]
    · rfl
    · intro c hcm
      simp only [List.mem_cons, List.mem_singleton, List.not_mem_nil, or_false] at hcm
      simp only [Bucket.len]
      rcases hcm with h | h | h | h <;> subst h <;> simp only <;> omega

theorem flushKey_self_len (grow : Nat → Nat) (s : WorkerState × ColumnSeriesMap)
    (tbk : TimeBucketKey) {b : Bucket}
    (hb : mapGet tbk (flushKey grow s tbk).1.dataBuckets = some b) : b.len = 0 := by
  rcases flushKey_dataBuckets grow s tbk with h1 | ⟨b0, _, h1⟩
  · -- nothing was stored: the loop over the bucket appended nothing
    revert hb
    unfold flushKey at h1 ⊢
    dsimp only at h1 ⊢
    split
    · next hnone => intro hb; simp [hnone] at hb
    · next q hq =>
      obtain ⟨h0, he, -⟩ := foldl_appendQuote_fields grow q s.1
      split
      · intro hb; simp [mapGet_mapSet_self] at hb; subst hb; rfl
      · next hlen =>
        intro hb
        simp only [h0, hq, Option.some.injEq] at hb
        subst hb
        simp only [Bucket.len]; omega
    · next t ht =>
      obtain ⟨h0, he, -⟩ := foldl_appendTrade_fields grow t s.1
      split
      · intro hb; simp [mapGet_mapSet_self] at hb; subst hb; rfl
      · next hlen =>
        intro hb
        simp only [h0, ht, Option.some.injEq] at hb
        subst hb
        simp only [Bucket.len]; omega
  · rw [h1, mapGet_mapSet_self] at hb
    cases hb
    exact Bucket.drained_len b0

/-! ## The loop over the keys -/

theorem foldl_flushKey_clear (grow : Nat → Nat) (l : List TimeBucketKey)
    (s : WorkerState × ColumnSeriesMap) (hc : ScratchClear s.1) :
    ScratchClear (l.foldl (flushKey grow) s).1 := by
  induction l generalizing s with
  | nil => exact hc
  | cons k l ih => exact ih _ (flushKey_clear grow s k hc)

theorem foldl_flushKey_of_not_mem (grow : Nat → Nat) (l : List TimeBucketKey)
    (s : WorkerState × ColumnSeriesMap) {k : TimeBucketKey} (hk : k ∉ l) :
    mapGet k (l.foldl (flushKey grow) s).1.dataBuckets = mapGet k s.1.dataBuckets ∧
    mapGet k (l.foldl (flushKey grow) s).2 = mapGet k s.2 := by
  induction l generalizing s with
  | nil => exact ⟨rfl, rfl⟩
  | cons k0 l ih =>
    have hne : k ≠ k0 := fun h => hk (by simp [h])
    have hl : k ∉ l := fun h => hk (by simp [h])
    obtain ⟨h1, h2⟩ := ih (flushKey grow s k0) hl
    exact ⟨by rw [List.foldl_cons, h1, flushKey_bucket_of_ne grow s hne],
      by rw [List.foldl_cons, h2, flushKey_csm_of_ne grow s hne]⟩

theorem flushKey_mapKeys (grow : Nat → Nat) (s : WorkerState × ColumnSeriesMap)
    (tbk : TimeBucketKey) :
    mapKeys (flushKey grow s tbk).1.dataBuckets = mapKeys s.1.dataBuckets := by
  rcases flushKey_dataBuckets grow s tbk with h1 | ⟨b, hb, h1⟩
  · rw [h1]
  · rw [h1]
    exact mapKeys_mapSet_of_mem _ ((mem_mapKeys_iff tbk _).2 ⟨b, hb⟩)

theorem foldl_flushKey_mapKeys (grow : Nat → Nat) (l : List TimeBucketKey)
    (s : WorkerState × ColumnSeriesMap) :
    mapKeys (l.foldl (flushKey grow) s).1.dataBuckets = mapKeys s.1.dataBuckets := by
  induction l generalizing s with
  | nil => rfl
  | cons k l ih => rw [List.foldl_cons, ih, flushKey_mapKeys]

theorem flushKey_variant (grow : Nat → Nat) (s : WorkerState × ColumnSeriesMap)
    (tbk k : TimeBucketKey) {b : Bucket} (hb : mapGet k s.1.dataBuckets = some b) :
    ∃ b', mapGet k (flushKey grow s tbk).1.dataBuckets = some b' ∧ b'.isQuotes = b.isQuotes := by
  rcases flushKey_dataBuckets grow s tbk with h1 | ⟨b0, hb0, h1⟩
  · exact ⟨b, by rw [h1, hb], rfl⟩
  · by_cases hk : k = tbk
    · subst hk
      rw [hb] at hb0
      cases hb0
      exact ⟨b.drained, by rw [h1, mapGet_mapSet_self], Bucket.drained_isQuotes b⟩
    · exact ⟨b, by rw [h1, mapGet_mapSet_of_ne hk, hb], rfl⟩

theorem foldl_flushKey_variant (grow : Nat → Nat) (l : List TimeBucketKey)
    (s : WorkerState × ColumnSeriesMap) (k : TimeBucketKey) {b : Bucket}
    (hb : mapGet k s.1.dataBuckets = some b) :
    ∃ b', mapGet k (l.foldl (flushKey grow) s).1.dataBuckets = some b' ∧
      b'.isQuotes = b.isQuotes := by
  induction l generalizing s b with
  | nil => exact ⟨b, hb, rfl⟩
  | cons k0 l ih =>
    obtain ⟨b1, hb1, hq1⟩ := flushKey_variant grow s k0 k hb
    obtain ⟨b2, hb2, hq2⟩ := ih (flushKey grow s k0) hb1
    exact ⟨b2, hb2, hq2.trans hq1⟩

theorem foldl_flushKey_len_zero (grow : Nat → Nat) (l : List TimeBucketKey)
    (s : WorkerState × ColumnSeriesMap) (k : TimeBucketKey)
    (h : k ∈ l ∨ ∀ b, mapGet k s.1.dataBuckets = some b → b.len = 0) {b : Bucket}
    (hb : mapGet k (l.foldl (flushKey grow) s).1.dataBuckets = some b) : b.len = 0 := by
  induction l generalizing s with
  | nil =>
    rcases h with h | h
    · simp at h
    · exact h b hb
  | cons k0 l ih =>
    rw [List.foldl_cons] at hb
    refine ih (flushKey grow s k0) ?_ hb
    by_cases hk : k = k0
    · subst hk
      exact Or.inr fun b' hb' => flushKey_self_len grow s k hb'
    · rcases h with h | h
      · exact Or.inl (by simpa [hk] using h)
      · exact Or.inr fun b' hb' => h b' (by rwa [flushKey_bucket_of_ne grow s hk] at hb')

/-- What a flush cycle does for one key `k` that `range` yields exactly once,
when no column was recorded for `k` before: nothing when the bucket is empty,
otherwise the bucket is drained and one column per schema field is recorded, each
with as many entries as the bucket had records. -/
theorem foldl_flushKey_of_mem (grow : Nat → Nat) (l : List TimeBucketKey)
    (s : WorkerState × ColumnSeriesMap) (hc : ScratchClear s.1) (hl : l.Nodup)
    {k : TimeBucketKey} (hk : k ∈ l) (hcsm : mapGet k s.2 = none) {b : Bucket}
    (hb : mapGet k s.1.dataBuckets = some b) :
    (b.len = 0 → mapGet k (l.foldl (flushKey grow) s).1.dataBuckets = some b ∧
      mapGet k (l.foldl (flushKey grow) s).2 = none) ∧
    (0 < b.len → mapGet k (l.foldl (flushKey grow) s).1.dataBuckets = some b.drained ∧
      ∃ cols : ColumnSeries, mapGet k (l.foldl (flushKey grow) s).2 = some cols ∧
        cols.map Prod.fst = b.columnNames ∧ ∀ c ∈ cols, c.2.len = b.len) := by
  obtain ⟨pre, post, rfl⟩ := List.append_of_mem hk
  have hpre : k ∉ pre := fun h => by
    have := List.nodup_append.1 hl
    exact this.2.2 h (by simp)
  have hpost : k ∉ post := by
    have := (List.nodup_append.1 hl).2.1
    exact (List.nodup_cons.1 this).1
  rw [List.foldl_append, List.foldl_cons]
  obtain ⟨p1, p2⟩ := foldl_flushKey_of_not_mem grow pre s hpre
  have pc := foldl_flushKey_clear grow pre s hc
  obtain ⟨q1, q2⟩ := foldl_flushKey_of_not_mem grow post
    (flushKey grow (pre.foldl (flushKey grow) s) k) hpost
  rw [q1, q2]
  rw [hb] at p1
  rw [hcsm] at p2
  constructor
  · intro h0
    rw [flushKey_empty grow _ k pc p1 h0]
    exact ⟨p1, p2⟩
  · intro h0
    obtain ⟨r1, cols, r2, r3, r4⟩ := flushKey_nonempty grow _ k pc p1 h0
    refine ⟨r1, cols, ?_, r3, r4⟩
    rw [r2, p2]
    rfl

/-! ## The append step -/

theorem writeRecv_cases (st st' : WorkerState) (p : writePacket) (h : writeRecv st p = some st') :
    st' = st ∨ ∃ b : Bucket,
      st' = { st with dataBuckets := mapSet p.tbk b st.dataBuckets } ∧
      ∀ b0, mapGet p.tbk st.dataBuckets = some b0 → b.isQuotes = b0.isQuotes := by
  unfold writeRecv at h
  split at h
  · next bucket hb =>
    split at h
    · split at h
      · cases h
        exact Or.inr ⟨_, rfl, fun b0 h0 => by rw [hb] at h0; cases h0; rfl⟩
      · cases h
    · split at h
      · cases h
        exact Or.inr ⟨_, rfl, fun b0 h0 => by rw [hb] at h0; cases h0; rfl⟩
      · cases h
    · cases h
      exact Or.inl rfl
  · next hb =>
    split at h
    · cases h
      exact Or.inr ⟨_, rfl, fun b0 h0 => by rw [hb] at h0; cases h0⟩
    · cases h
      exact Or.inr ⟨_, rfl, fun b0 h0 => by rw [hb] at h0; cases h0⟩
    · cases h
      exact Or.inl rfl

theorem writeRecv_quote_on_trades (st : WorkerState) (k : TimeBucketKey) (q : quote)
    {b : List trade} (hb : mapGet k st.dataBuckets = some (.trades b)) :
    writeRecv st ⟨k, .quote q⟩ = none := by
  simp [writeRecv, hb]

theorem writeRecv_trade_on_quotes (st : WorkerState) (k : TimeBucketKey) (t : trade)
    {b : List quote} (hb : mapGet k st.dataBuckets = some (.quotes b)) :
    writeRecv st ⟨k, .trade t⟩ = none := by
  simp [writeRecv, hb]

theorem mapKeys_mapSet_nodup {β : Type} (k : TimeBucketKey) (v : β)
    {m : List (TimeBucketKey × β)} (h : (mapKeys m).Nodup) : (mapKeys (mapSet k v m)).Nodup := by
  by_cases hk : k ∈ mapKeys m
  · rw [mapKeys_mapSet_of_mem v hk]
    exact h
  · rw [mapKeys_mapSet_of_not_mem v hk]
    exact List.nodup_append.2 ⟨h, List.nodup_singleton k, by
      intro a ha hb
      simp only [List.mem_singleton] at hb
      exact hk (hb ▸ ha)⟩

theorem mem_mapKeys_mapSet {β : Type} (k k' : TimeBucketKey) (v : β)
    {m : List (TimeBucketKey × β)} (h : k' ∈ mapKeys m) : k' ∈ mapKeys (mapSet k v m) := by
  by_cases hk : k ∈ mapKeys m
  · rw [mapKeys_mapSet_of_mem v hk]
    exact h
  · rw [mapKeys_mapSet_of_not_mem v hk]
    exact List.mem_append_left _ h

/-! ## What holds in every reachable state -/

theorem Reachable.invariant {grow : Nat → Nat} {st : WorkerState} (h : Reachable grow st) :
    ScratchClear st ∧ (mapKeys st.dataBuckets).Nodup := by
  induction h with
  | init => exact ⟨by decide, by simp [WorkerState.init, mapKeys]⟩
  | recv p _ hstep ih =>
    rcases writeRecv_cases _ _ p hstep with h | ⟨b, h, _⟩
    · rw [h]; exact ih
    · rw [h]
      exact ⟨ih.1, mapKeys_mapSet_nodup _ _ ih.2⟩
  | timeout order _ _ ih =>
    refine ⟨foldl_flushKey_clear grow order _ ih.1, ?_⟩
    unfold flushLoop
    rw [foldl_flushKey_mapKeys]
    exact ih.2

theorem RangeOrder.nodup {order : List TimeBucketKey} {m : List (TimeBucketKey × Bucket)}
    (h : RangeOrder order m) (hm : (mapKeys m).Nodup) : order.Nodup :=
  (List.Perm.nodup_iff h).2 hm

theorem RangeOrder.mem_iff {order : List TimeBucketKey} {m : List (TimeBucketKey × Bucket)}
    (h : RangeOrder order m) (k : TimeBucketKey) : k ∈ order ↔ k ∈ mapKeys m :=
  List.Perm.mem_iff h

/-! ## The heap: what `append` does to a slice and to the other slices -/

theorem read_take_of_length (l r : List Int) (x : Int) (n : Nat) (hn : l.length = n) :
    (List.range (n + 1)).map (fun i => (l ++ x :: r).getD i 0) = l ++ [x] := by
  subst hn
  apply List.ext_getElem
  · simp
  · intro i h1 h2
    simp only [List.length_map, List.length_range] at h1
    simp only [List.getElem_map, List.getElem_range, List.getD_eq_getElem?_getD]
    by_cases hi : i < l.length
    · rw [List.getElem?_append_left hi, List.getElem_append_left hi, List.getElem?_eq_getElem hi]
      rfl
    · have : i = l.length := by omega
      subst this
      rw [List.getElem?_append_right (le_refl _), List.getElem_append_right (le_refl _)]
      simp

theorem read_set_succ (blk : List Int) (x : Int) (n : Nat) (hn : n < blk.length) :
    (List.range (n + 1)).map (fun i => (blk.set n x).getD i 0) =
      (List.range n).map (fun i => blk.getD i 0) ++ [x] := by
  rw [List.range_succ, List.map_append]
  congr 1
  · apply List.map_congr_left
    intro i hi
    have : i < n := List.mem_range.1 hi
    simp [List.getD_eq_getElem?_getD, List.getElem?_set, Nat.ne_of_gt this]
  · simp [List.getD_eq_getElem?_getD, List.getElem?_set, hn]

theorem getD_append_left_block (h : Heap) (blk : List Int) (i : Nat) (hi : i < h.length) :
    (h ++ [blk]).getD i [] = h.getD i [] := by
  simp [List.getD_eq_getElem?_getD, List.getElem?_append_left hi]

theorem getD_set_self_block (h : Heap) (blk : List Int) (i : Nat) (hi : i < h.length) :
    (h.set i blk).getD i [] = blk := by
  simp [List.getD_eq_getElem?_getD, List.getElem?_set, hi]

theorem getD_set_of_ne_block (h : Heap) (blk : List Int) {i j : Nat} (hij : i ≠ j) :
    (h.set i blk).getD j [] = h.getD j [] := by
  simp [List.getD_eq_getElem?_getD, List.getElem?_set, hij]

theorem length_getD_set_block (h : Heap) (i j n : Nat) (x : Int) :
    ((h.set i ((h.getD i []).set n x)).getD j []).length = (h.getD j []).length := by
  by_cases hij : i = j
  · subst hij
    by_cases hi : i < h.length
    · rw [getD_set_self_block h _ i hi, List.length_set]
    · rw [List.set_eq_of_length_le (by omega)]
  · rw [getD_set_of_ne_block h _ hij]

theorem sliceAppend_ok (grow : Nat → Nat) (h : Heap) (s : Slice) (x : Int) (hs : SliceOK h s) :
    SliceOK (sliceAppend grow h s x).1 (sliceAppend grow h s x).2 := by
  obtain ⟨hle, hblk⟩ := hs
  unfold sliceAppend
  split
  · next hlt =>
    rcases hblk with h0 | ⟨ha, hl⟩
    · omega
    · refine ⟨by show s.len + 1 ≤ s.cap; omega, Or.inr ⟨by simpa using ha, ?_⟩⟩
      show ((h.set s.arr ((h.getD s.arr []).set s.len x)).getD s.arr []).length = s.cap
      rw [length_getD_set_block, hl]
  · next hge =>
    have hg : s.len + 1 ≤ growslice grow s := by unfold growslice; omega
    refine ⟨hg, Or.inr ⟨by simp, ?_⟩⟩
    show ((h ++ [h.read s ++ x :: List.replicate (growslice grow s - (s.len + 1)) 0]).getD
      h.length []).length = growslice grow s
    simp [List.getD_eq_getElem?_getD, List.getElem?_append_right, Heap.read_length]
    omega

theorem sliceAppend_ok_other (grow : Nat → Nat) (h : Heap) (s t : Slice) (x : Int)
    (ht : SliceOK h t) : SliceOK (sliceAppend grow h s x).1 t := by
  obtain ⟨hle, hblk⟩ := ht
  refine ⟨hle, ?_⟩
  rcases hblk with h0 | ⟨ha, hl⟩
  · exact Or.inl h0
  · right
    unfold sliceAppend
    split
    · exact ⟨by simpa using ha, by
        show ((h.set s.arr ((h.getD s.arr []).set s.len x)).getD t.arr []).length = t.cap
        rw [length_getD_set_block, hl]⟩
    · exact ⟨by simp; omega, by
        show ((h ++ [_]).getD t.arr []).length = t.cap
        rw [getD_append_left_block h _ _ ha, hl]⟩

theorem sliceAppend_apart (grow : Nat → Nat) (h : Heap) (s t : Slice) (x : Int)
    (ht : SliceOK h t) (ha : Apart s t) : Apart (sliceAppend grow h s x).2 t := by
  unfold sliceAppend
  split
  · exact ha
  · rcases ht.2 with h0 | ⟨hlt, _⟩
    · exact Or.inr (Or.inl h0)
    · exact Or.inr (Or.inr (by show h.length ≠ t.arr; omega))

theorem Apart.symm {s t : Slice} (h : Apart s t) : Apart t s := by
  rcases h with h | h | h
  · exact Or.inr (Or.inl h)
  · exact Or.inl h
  · exact Or.inr (Or.inr (Ne.symm h))

theorem sliceAppend_read_self (grow : Nat → Nat) (h : Heap) (s : Slice) (x : Int)
    (hs : SliceOK h s) :
    (sliceAppend grow h s x).1.read (sliceAppend grow h s x).2 = h.read s ++ [x] := by
  obtain ⟨hle, hblk⟩ := hs
  unfold sliceAppend
  split
  · next hlt =>
    rcases hblk with h0 | ⟨ha, hl⟩
    · omega
    · show (List.range (s.len + 1)).map
        (fun i => ((h.set s.arr ((h.getD s.arr []).set s.len x)).getD s.arr []).getD i 0) = _
      rw [getD_set_self_block h _ _ ha]
      exact read_set_succ _ x s.len (by omega)
  · show (List.range (s.len + 1)).map
      (fun i => ((h ++ [h.read s ++ x :: List.replicate (growslice grow s - (s.len + 1)) 0]).getD
        h.length []).getD i 0) = _
    have : (h ++ [h.read s ++ x :: List.replicate (growslice grow s - (s.len + 1)) 0]).getD
        h.length [] = h.read s ++ x :: List.replicate (growslice grow s - (s.len + 1)) 0 := by
      simp [List.getD_eq_getElem?_getD, List.getElem?_append_right]
    rw [this]
    exact read_take_of_length _ _ x s.len (Heap.read_length h s)

theorem sliceAppend_read_other (grow : Nat → Nat) (h : Heap) (s t : Slice) (x : Int)
    (ht : SliceOK h t) (ha : Apart s t) : (sliceAppend grow h s x).1.read t = h.read t := by
  obtain ⟨hle, hblk⟩ := ht
  by_cases hz : t.len = 0
  · simp [Heap.read, hz]
  · rcases hblk with h0 | ⟨hlt, hl⟩
    · omega
    · unfold sliceAppend
      split
      · next hin =>
        have hne : s.arr ≠ t.arr := by
          rcases ha with h1 | h1 | h1
          · omega
          · omega
          · exact h1
        simp only [Heap.read]
        rw [getD_set_of_ne_block h _ hne]
      · simp only [Heap.read]
        rw [getD_append_left_block h _ _ hlt]

/-! ## The scratch slices of the trade branch -/

theorem QuadOK.rotate {h : Heap} {a b c d : Slice} (q : QuadOK h a b c d) : QuadOK h b c d a := by
  obtain ⟨⟨oa, ob, oc, od⟩, ⟨ab, ac, ad⟩, bc, bd, cd⟩ := q
  exact ⟨⟨ob, oc, od, oa⟩, ⟨bc, bd, ab.symm⟩, cd, ac.symm, ad.symm⟩

theorem QuadOK.append_first (grow : Nat → Nat) {h : Heap} {a b c d : Slice} (x : Int)
    (q : QuadOK h a b c d) :
    QuadOK (sliceAppend grow h a x).1 (sliceAppend grow h a x).2 b c d ∧
    (sliceAppend grow h a x).1.read (sliceAppend grow h a x).2 = h.read a ++ [x] ∧
    (sliceAppend grow h a x).1.read b = h.read b ∧
    (sliceAppend grow h a x).1.read c = h.read c ∧
    (sliceAppend grow h a x).1.read d = h.read d := by
  obtain ⟨⟨oa, ob, oc, od⟩, ⟨ab, ac, ad⟩, bc, bd, cd⟩ := q
  exact ⟨⟨⟨sliceAppend_ok grow h a x oa, sliceAppend_ok_other grow h a b x ob,
      sliceAppend_ok_other grow h a c x oc, sliceAppend_ok_other grow h a d x od⟩,
      ⟨sliceAppend_apart grow h a b x ob ab, sliceAppend_apart grow h a c x oc ac,
        sliceAppend_apart grow h a d x od ad⟩, bc, bd, cd⟩,
    sliceAppend_read_self grow h a x oa, sliceAppend_read_other grow h a b x ob ab,
    sliceAppend_read_other grow h a c x oc ac, sliceAppend_read_other grow h a d x od ad⟩

theorem QuadOK.append_outside (grow : Nat → Nat) {h : Heap} {a b c d : Slice} (s : Slice) (x : Int)
    (q : QuadOK h a b c d) : QuadOK (sliceAppend grow h s x).1 a b c d := by
  obtain ⟨⟨oa, ob, oc, od⟩, hab, hcd⟩ := q
  exact ⟨⟨sliceAppend_ok_other grow h s a x oa, sliceAppend_ok_other grow h s b x ob,
    sliceAppend_ok_other grow h s c x oc, sliceAppend_ok_other grow h s d x od⟩, hab, hcd⟩

theorem SliceOK.trimmed {h : Heap} {s : Slice} (hs : SliceOK h s) : SliceOK h s.trim :=
  ⟨Nat.zero_le _, hs.2⟩

theorem QuadOK.trim_all {h : Heap} {a b c d : Slice} (q : QuadOK h a b c d) :
    QuadOK h a.trim b.trim c.trim d.trim := by
  obtain ⟨⟨oa, ob, oc, od⟩, hab, hcd⟩ := q
  exact ⟨⟨oa.trimmed, ob.trimmed, oc.trimmed, od.trimmed⟩, hab, hcd⟩

theorem appendTrade_ok (grow : Nat → Nat) (st : WorkerState) (t : trade)
    (q : TradeScratchOK st) :
    TradeScratchOK (appendTrade grow st t) ∧
    (appendTrade grow st t).heap.read (appendTrade grow st t).epoch =
      st.heap.read st.epoch ++ [t.epoch] ∧
    (appendTrade grow st t).heap.read (appendTrade grow st t).nanos =
      st.heap.read st.nanos ++ [t.nanos] ∧
    (appendTrade grow st t).heap.read (appendTrade grow st t).px =
      st.heap.read st.px ++ [t.px] ∧
    (appendTrade grow st t).heap.read (appendTrade grow st t).sz =
      st.heap.read st.sz ++ [t.sz] := by
  obtain ⟨q1, e1, n1, p1, z1⟩ := QuadOK.append_first grow t.epoch q
  obtain ⟨q2, n2, p2, z2, e2⟩ := QuadOK.append_first grow t.nanos q1.rotate
  obtain ⟨q3, p3, z3, e3, n3⟩ := QuadOK.append_first grow t.px q2.rotate
  obtain ⟨q4, z4, e4, n4, p4⟩ := QuadOK.append_first grow t.sz q3.rotate
  refine ⟨q4.rotate, ?_, ?_, ?_, ?_⟩
  · exact e4.trans (e3.trans (e2.trans e1))
  · exact n4.trans (n3.trans (n2.trans (by rw [n1])))
  · exact p4.trans (p3.trans (by rw [p2, p1]))
  · exact z4.trans (by rw [z3, z2, z1])

theorem appendQuote_ok (grow : Nat → Nat) (st : WorkerState) (q0 : quote)
    (q : TradeScratchOK st) : TradeScratchOK (appendQuote grow st q0) := by
  obtain ⟨q1, -⟩ := QuadOK.append_first grow q0.epoch q
  obtain ⟨q2, -⟩ := QuadOK.append_first grow q0.nanos q1.rotate
  have q3 := QuadOK.append_outside grow st.bidPx q0.bidPx q2
  have q4 := QuadOK.append_outside grow st.askPx q0.askPx q3
  have q5 := QuadOK.append_outside grow st.bidSz q0.bidSz q4
  have q6 := QuadOK.append_outside grow st.askSz q0.askSz q5
  exact q6.rotate.rotate.rotate

theorem foldl_appendQuote_ok (grow : Nat → Nat) (b : List quote) (st : WorkerState)
    (q : TradeScratchOK st) : TradeScratchOK (b.foldl (appendQuote grow) st) := by
  induction b generalizing st with
  | nil => exact q
  | cons q0 b ih => exact ih _ (appendQuote_ok grow st q0 q)

theorem foldl_appendTrade_ok (grow : Nat → Nat) (b : List trade) (st : WorkerState)
    (q : TradeScratchOK st) :
    TradeScratchOK (b.foldl (appendTrade grow) st) ∧
    (b.foldl (appendTrade grow) st).heap.read (b.foldl (appendTrade grow) st).epoch =
      st.heap.read st.epoch ++ b.map trade.epoch ∧
    (b.foldl (appendTrade grow) st).heap.read (b.foldl (appendTrade grow) st).nanos =
      st.heap.read st.nanos ++ b.map trade.nanos ∧
    (b.foldl (appendTrade grow) st).heap.read (b.foldl (appendTrade grow) st).px =
      st.heap.read st.px ++ b.map trade.px ∧
    (b.foldl (appendTrade grow) st).heap.read (b.foldl (appendTrade grow) st).sz =
      st.heap.read st.sz ++ b.map trade.sz := by
  induction b generalizing st with
  | nil => simp [q]
  | cons t b ih =>
    obtain ⟨q1, e1, n1, p1, z1⟩ := appendTrade_ok grow st t q
    obtain ⟨q2, e2, n2, p2, z2⟩ := ih _ q1
    simp only [List.foldl_cons, List.map_cons]
    exact ⟨q2, by rw [e2, e1, List.append_assoc]; rfl, by rw [n2, n1, List.append_assoc]; rfl,
      by rw [p2, p1, List.append_assoc]; rfl, by rw [z2, z1, List.append_assoc]; rfl⟩

theorem QuadOK.trim_first {h : Heap} {a b c d : Slice} (q : QuadOK h a b c d) :
    QuadOK h a.trim b c d := by
  obtain ⟨⟨oa, ob, oc, od⟩, hab, hcd⟩ := q
  exact ⟨⟨oa.trimmed, ob, oc, od⟩, hab, hcd⟩

theorem flushKey_tradeScratchOK (grow : Nat → Nat) (s : WorkerState × ColumnSeriesMap)
    (tbk : TimeBucketKey) (q : TradeScratchOK s.1) : TradeScratchOK (flushKey grow s tbk).1 := by
  unfold flushKey
  dsimp only
  split
  · exact q
  · next b hb =>
    have q1 := foldl_appendQuote_ok grow b s.1 q
    split
    · exact q1.trim_first.rotate.trim_first.rotate.rotate.rotate
    · exact q1
  · next b hb =>
    have q1 := (foldl_appendTrade_ok grow b s.1 q).1
    split
    · exact q1.trim_all
    · exact q1

theorem foldl_flushKey_tradeScratchOK (grow : Nat → Nat) (l : List TimeBucketKey)
    (s : WorkerState × ColumnSeriesMap) (q : TradeScratchOK s.1) :
    TradeScratchOK (l.foldl (flushKey grow) s).1 := by
  induction l generalizing s with
  | nil => exact q
  | cons k l ih => exact ih _ (flushKey_tradeScratchOK grow s k q)

theorem Reachable.tradeScratchOK {grow : Nat → Nat} {st : WorkerState} (h : Reachable grow st) :
    TradeScratchOK st := by
  induction h with
  | init =>
    have ok : SliceOK WorkerState.init.heap Slice.nil := ⟨Nat.le_refl _, Or.inl rfl⟩
    exact ⟨⟨ok, ok, ok, ok⟩, ⟨Or.inl rfl, Or.inl rfl, Or.inl rfl⟩, Or.inl rfl, Or.inl rfl,
      Or.inl rfl⟩
  | recv p _ hstep ih =>
    rcases writeRecv_cases _ _ p hstep with h | ⟨b, h, _⟩
    · rw [h]; exact ih
    · rw [h]; exact ih
  | timeout order _ _ ih => exact foldl_flushKey_tradeScratchOK grow order _ ih

theorem flushKey_trades_columns (grow : Nat → Nat) (s : WorkerState × ColumnSeriesMap)
    (tbk : TimeBucketKey) (hc : ScratchClear s.1) (q : TradeScratchOK s.1) {b : List trade}
    (hb : mapGet tbk s.1.dataBuckets = some (.trades b)) (hne : b ≠ [])
    (hcsm : mapGet tbk s.2 = none) :
    mapGet tbk (readCSM (flushKey grow s tbk).1.heap (flushKey grow s tbk).2) =
      some [("Epoch", b.map trade.epoch), ("Nanoseconds", b.map trade.nanos),
            ("Price", b.map trade.px), ("Size", b.map trade.sz)] := by
  obtain ⟨c1, c2, -, -, c5, -, -, c8⟩ := hc
  obtain ⟨-, e, n, p, z⟩ := foldl_appendTrade_ok grow b s.1 q
  obtain ⟨-, h1, -⟩ := foldl_appendTrade_fields grow b s.1
  have hpos : (b.foldl (appendTrade grow) s.1).epoch.len > 0 := by
    have : 0 < b.length := List.length_pos.2 hne
    omega
  have r0 : ∀ t : Slice, t.len = 0 → s.1.heap.read t = [] := fun t ht => by
    simp [Heap.read, ht]
  rw [r0 _ c1, List.nil_append] at e
  rw [r0 _ c2, List.nil_append] at n
  rw [r0 _ c5, List.nil_append] at p
  rw [r0 _ c8, List.nil_append] at z
  rw [mapGet_readCSM]
  simp only [flushKey, hb, hpos, if_true, mapGet_AddColumn_self, hcsm, Option.getD_none,
    Option.getD_some, List.nil_append, List.cons_append, Option.map_some', List.map_cons,
    List.map_nil, e, n, p, z]

theorem foldl_flushKey_empty_keys (grow : Nat → Nat) (l : List TimeBucketKey)
    (s : WorkerState × ColumnSeriesMap) (hc : ScratchClear s.1)
    (he : ∀ k ∈ l, ∀ b, mapGet k s.1.dataBuckets = some b → b.len = 0) :
    l.foldl (flushKey grow) s = s := by
  induction l with
  | nil => rfl
  | cons k l ih =>
    have : flushKey grow s k = s := by
      cases hb : mapGet k s.1.dataBuckets with
      | none => exact flushKey_absent grow s k hb
      | some b => exact flushKey_empty grow s k hc hb (he k (by simp) b hb)
    rw [List.foldl_cons, this, ih fun k' hk' => he k' (by simp [hk'])]

/-! ## The claims -/

/-- C1 (variant mismatch is dropped without a crash): evaluated on the scenario of
the claim.  A Trade under the fresh key `T` creates a `[]*trade` bucket of length
1; the Quote that follows under `T` does not leave that bucket unchanged, the
append step panics at the type assertion `bucket.([]*quote)` of line 74, so the
step has no state after it. -/
theorem variant_mismatch_panics :
    writeRecv WorkerState.init ⟨"T", .trade exTrade⟩ = some stOneTrade ∧
    mapGet "T" stOneTrade.dataBuckets = some (.trades [exTrade]) ∧
    writeRecv stOneTrade ⟨"T", .quote (exQuote 1000)⟩ = none ∧
    write growDouble sinkOk
      [.packet ⟨"T", .trade exTrade⟩, .packet ⟨"T", .quote (exQuote 1000)⟩]
      WorkerState.init = (none, []) := by
  refine ⟨rfl, rfl, rfl, rfl⟩

/-- C2 (order preservation, column by column, across flush cycles): evaluated on
two quotes submitted under the one key `K`, each followed by a flush cycle, for
every growth policy of `append` and every Storage Sink.  The `BidPrice` column
concatenated over the two cycles is `[10.0, 10.1]`, not the submitted bid prices
`[10.0, 10.0]`: in the second cycle `askPx` shares the backing array of `bidPx`
(line 120), so the ask price overwrites the bid price. -/
theorem bidPrice_not_preserved (grow : Nat → Nat) (WriteCSM : Batch → Bool) :
    columnOver (write grow WriteCSM
      [.packet ⟨"K", .quote (exQuote 1000)⟩, .timeout ["K"],
       .packet ⟨"K", .quote (exQuote 1001)⟩, .timeout ["K"]] WorkerState.init).2
      "K" "BidPrice" = [0x41200000, 0x4121999A] ∧
    [exQuote 1000, exQuote 1001].map quote.bidPx = [0x41200000, 0x41200000] := by
  constructor
  · simp [write, writeRecv, writeTimeout, flushLoop, flushKey, WorkerState.init, mapGet, mapSet,
      appendQuote, sliceAppend, Slice.nil, Slice.trim, growslice, NewColumnSeriesMap, AddColumn,
      readCSM, Heap.read, columnOver, Batch.column, exQuote, List.range, List.range.loop]
  · rfl

/-- C3 (the six quote columns hold the quotes' fields in every flush cycle):
evaluated on the scenario of the claim run twice, three quotes with epochs 1000,
1001, 1002 under `K` and a flush cycle, then the same three quotes and a second
flush cycle.  The first batch is as the claim says; in the second the `BidPrice`
column is `[10.1, 10.1, 10.1]`, the ask prices, not `[10.0, 10.0, 10.0]`. -/
theorem quote_columns_second_cycle :
    (write growDouble sinkOk
      [.packet ⟨"K", .quote (exQuote 1000)⟩, .packet ⟨"K", .quote (exQuote 1001)⟩,
       .packet ⟨"K", .quote (exQuote 1002)⟩, .timeout ["K"],
       .packet ⟨"K", .quote (exQuote 1000)⟩, .packet ⟨"K", .quote (exQuote 1001)⟩,
       .packet ⟨"K", .quote (exQuote 1002)⟩, .timeout ["K"]] WorkerState.init).2 =
      [[("K", [("Epoch", [1000, 1001, 1002]), ("Nanoseconds", [0, 0, 0]),
               ("BidPrice", [0x41200000, 0x41200000, 0x41200000]),
               ("AskPrice", [0x4121999A, 0x4121999A, 0x4121999A]),
               ("BidSize", [5, 5, 5]), ("AskSize", [7, 7, 7])])],
       [("K", [("Epoch", [1000, 1001, 1002]), ("Nanoseconds", [0, 0, 0]),
               ("BidPrice", [0x4121999A, 0x4121999A, 0x4121999A]),
               ("AskPrice", [0x4121999A, 0x4121999A, 0x4121999A]),
               ("BidSize", [5, 5, 5]), ("AskSize", [7, 7, 7])])]] := by
  rfl

/-- C4 (the four trade columns hold the trades' fields in every flush cycle):
evaluated on one flush cycle over two trade keys, `T` holding `exTrade` and `U`
holding `exTrade2`, for every growth policy of `append` and every Storage Sink.
When `range` yields `T` first, the batch handed to the sink for `T` holds the
fields of `exTrade2`: the columns recorded for `T` are the scratch slices, and
the appends for `U` write into the same backing arrays after the `[:0]` trim.
When `range` yields `U` first, it is the batch for `U` that holds the fields of
`exTrade`. -/
theorem trade_columns_overwritten (grow : Nat → Nat) (WriteCSM : Batch → Bool) :
    (write grow WriteCSM
      [.packet ⟨"T", .trade exTrade⟩, .packet ⟨"U", .trade exTrade2⟩, .timeout ["T", "U"]]
      WorkerState.init).2 =
      [[("T", [("Epoch", [2001]), ("Nanoseconds", [1]), ("Price", [0x41200000]),
               ("Size", [3])]),
        ("U", [("Epoch", [2001]), ("Nanoseconds", [1]), ("Price", [0x41200000]),
               ("Size", [3])])]] ∧
    (write grow WriteCSM
      [.packet ⟨"T", .trade exTrade⟩, .packet ⟨"U", .trade exTrade2⟩, .timeout ["U", "T"]]
      WorkerState.init).2 =
      [[("U", [("Epoch", [2000]), ("Nanoseconds", [0]), ("Price", [0x42C70000]),
               ("Size", [10])]),
        ("T", [("Epoch", [2000]), ("Nanoseconds", [0]), ("Price", [0x42C70000]),
               ("Size", [10])])]] := by
  constructor <;>
  simp [write, writeRecv, writeTimeout, flushLoop, flushKey, WorkerState.init, mapGet, mapSet,
    appendTrade, sliceAppend, Slice.nil, Slice.trim, growslice, NewColumnSeriesMap, AddColumn,
    readCSM, Heap.read, exTrade, exTrade2, List.range, List.range.loop]

/-- C5 (drain-on-flush): in every reachable worker state, for every key whose
buffer holds `N >= 1` records, after one flush cycle (whatever order `range`
yields the keys in) the key's buffer has length 0, and the batch emitted for the
key has the columns of the variant's schema, every one with exactly `N`
entries. -/
theorem drain_on_flush (grow : Nat → Nat) (WriteCSM : Batch → Bool)
    (order : List TimeBucketKey) (st : WorkerState) (k : TimeBucketKey) (b : Bucket)
    (hr : Reachable grow st) (ho : RangeOrder order st.dataBuckets)
    (hb : mapGet k st.dataBuckets = some b) (hN : 1 ≤ b.len) :
    (mapGet k (writeTimeout grow WriteCSM order st).state.dataBuckets).map Bucket.len = some 0 ∧
    ∃ cols, mapGet k (writeTimeout grow WriteCSM order st).batch = some cols ∧
      cols.map Prod.fst = b.columnNames ∧ ∀ c ∈ cols, c.2.length = b.len := by
  obtain ⟨hc, hnd⟩ := hr.invariant
  have hk : k ∈ order := (ho.mem_iff k).2 ((mem_mapKeys_iff k _).2 ⟨b, hb⟩)
  obtain ⟨h1, cols, h2, h3, h4⟩ :=
    (foldl_flushKey_of_mem grow order (st, NewColumnSeriesMap) hc (ho.nodup hnd) hk rfl hb).2 hN
  refine ⟨?_, cols.map (fun c => (c.1, (flushLoop grow order st).1.heap.read c.2)), ?_, ?_, ?_⟩
  · show (mapGet k (flushLoop grow order st).1.dataBuckets).map Bucket.len = some 0
    unfold flushLoop
    rw [h1]
    simp [Bucket.drained_len]
  · show mapGet k (readCSM _ (flushLoop grow order st).2) = _
    rw [mapGet_readCSM]
    unfold flushLoop
    rw [h2]
    rfl
  · rw [← h3]
    simp [List.map_map]
  · intro c hcm
    obtain ⟨c0, hc0, rfl⟩ := List.mem_map.1 hcm
    simp only [Heap.read_length]
    exact h4 c0 hc0

/-- Witness of C5: the worker that received one quote under `K`; after the flush
cycle the bucket of `K` has length 0 and the six columns have one entry each. -/
theorem drain_on_flush_witness :
    (mapGet "K" (writeTimeout growDouble sinkOk ["K"] stOneQuote).state.dataBuckets).map
      Bucket.len = some 0 ∧
    ∃ cols, mapGet "K" (writeTimeout growDouble sinkOk ["K"] stOneQuote).batch = some cols ∧
      cols.map Prod.fst = (Bucket.quotes [exQuote 1000]).columnNames ∧
      ∀ c ∈ cols, c.2.length = (Bucket.quotes [exQuote 1000]).len :=
  drain_on_flush growDouble sinkOk ["K"] stOneQuote "K" (.quotes [exQuote 1000])
    (Reachable.recv ⟨"K", .quote (exQuote 1000)⟩ Reachable.init rfl)
    (List.Perm.refl _) rfl (by decide)

/-- C6 (skip-empty): in every reachable worker state, the map handed to the
Storage Sink in a flush cycle has an entry for a key if and only if the key's
buffer was non-empty when the cycle started; and when every buffer is empty the
sink is still called, with the empty map (the logged flag is the sink's answer
to the empty map). -/
theorem skip_empty (grow : Nat → Nat) (WriteCSM : Batch → Bool)
    (order : List TimeBucketKey) (st : WorkerState)
    (hr : Reachable grow st) (ho : RangeOrder order st.dataBuckets) :
    (∀ k, (∃ cols, mapGet k (writeTimeout grow WriteCSM order st).batch = some cols) ↔
      ∃ b, mapGet k st.dataBuckets = some b ∧ 0 < b.len) ∧
    ((∀ k b, mapGet k st.dataBuckets = some b → b.len = 0) →
      (writeTimeout grow WriteCSM order st).batch = [] ∧
      (writeTimeout grow WriteCSM order st).logged = WriteCSM []) := by
  obtain ⟨hc, hnd⟩ := hr.invariant
  constructor
  · intro k
    have hbatch : mapGet k (writeTimeout grow WriteCSM order st).batch =
        (mapGet k (order.foldl (flushKey grow) (st, NewColumnSeriesMap)).2).map
          fun cs => cs.map fun c => (c.1, (flushLoop grow order st).1.heap.read c.2) :=
      mapGet_readCSM _ _ k
    rw [hbatch]
    cases hb : mapGet k st.dataBuckets with
    | none =>
      have hk : k ∉ order := fun h => by
        obtain ⟨v, hv⟩ := (mem_mapKeys_iff k _).1 ((ho.mem_iff k).1 h)
        rw [hb] at hv
        cases hv
      rw [(foldl_flushKey_of_not_mem grow order (st, NewColumnSeriesMap) hk).2]
      simp [NewColumnSeriesMap, mapGet]
    | some b =>
      have hk : k ∈ order := (ho.mem_iff k).2 ((mem_mapKeys_iff k _).2 ⟨b, hb⟩)
      obtain ⟨h0, h1⟩ :=
        foldl_flushKey_of_mem grow order (st, NewColumnSeriesMap) hc (ho.nodup hnd) hk rfl hb
      rcases Nat.eq_zero_or_pos b.len with hz | hp
      · rw [(h0 hz).2]
        simp [hz]
      · obtain ⟨_, cols, h2, _⟩ := h1 hp
        rw [h2]
        simp [hp]
  · intro he
    have hloop : flushLoop grow order st = (st, NewColumnSeriesMap) :=
      foldl_flushKey_empty_keys grow order (st, NewColumnSeriesMap) hc fun k _ => he k
    have hbatch : (writeTimeout grow WriteCSM order st).batch = [] := by
      show readCSM _ (flushLoop grow order st).2 = []
      rw [hloop]
      rfl
    refine ⟨hbatch, ?_⟩
    show WriteCSM (writeTimeout grow WriteCSM order st).batch = WriteCSM []
    rw [hbatch]

/-- Witness of C6: the worker that received one quote under `K`. -/
theorem skip_empty_witness :
    (∀ k, (∃ cols, mapGet k (writeTimeout growDouble sinkOk ["K"] stOneQuote).batch = some cols) ↔
      ∃ b, mapGet k stOneQuote.dataBuckets = some b ∧ 0 < b.len) ∧
    ((∀ k b, mapGet k stOneQuote.dataBuckets = some b → b.len = 0) →
      (writeTimeout growDouble sinkOk ["K"] stOneQuote).batch = [] ∧
      (writeTimeout growDouble sinkOk ["K"] stOneQuote).logged = sinkOk []) :=
  skip_empty growDouble sinkOk ["K"] stOneQuote
    (Reachable.recv ⟨"K", .quote (exQuote 1000)⟩ Reachable.init rfl) (List.Perm.refl _)

theorem write_sink_irrelevant (grow : Nat → Nat) (sink1 sink2 : Batch → Bool)
    (evs : List Event) (st : WorkerState) : write grow sink1 evs st = write grow sink2 evs st := by
  induction evs generalizing st with
  | nil => rfl
  | cons e evs ih =>
    cases e with
    | packet p =>
      simp only [write]
      cases writeRecv st p with
      | none => rfl
      | some st' => exact ih st'
    | timeout order =>
      simp only [write]
      have hs : (writeTimeout grow sink1 order st).state = (writeTimeout grow sink2 order st).state :=
        rfl
      have hb : (writeTimeout grow sink1 order st).batch = (writeTimeout grow sink2 order st).batch :=
        rfl
      rw [hs, hb, ih]

/-- C8 (a record that is neither a Trade nor a Quote is ignored): for every worker
state and every key, the append step of such a packet completes and leaves the
worker state, the buffer map included, as it was: an absent key gets no entry, a
present key keeps its buffer. -/
theorem unrecognized_record_ignored (st : WorkerState) (k : TimeBucketKey) :
    writeRecv st ⟨k, .other⟩ = some st := by
  unfold writeRecv
  cases mapGet k st.dataBuckets <;> rfl

/-- C9 (the variant of a key's buffer never changes): for every worker state
(the reachable ones included) and every key `k` present with bucket `b`, after
an append step that completes, of any packet, and after a flush cycle in any
order, `k` is present with a bucket of the same variant as `b`; after the flush
cycle this holds also when the bucket was drained. -/
theorem variant_never_changes (grow : Nat → Nat) (WriteCSM : Batch → Bool) (st : WorkerState)
    (k : TimeBucketKey) (b : Bucket) (hb : mapGet k st.dataBuckets = some b) :
    (∀ p st', writeRecv st p = some st' →
      ∃ b', mapGet k st'.dataBuckets = some b' ∧ b'.isQuotes = b.isQuotes) ∧
    (∀ order, ∃ b', mapGet k (writeTimeout grow WriteCSM order st).state.dataBuckets = some b' ∧
      b'.isQuotes = b.isQuotes) := by
  constructor
  · intro p st' hstep
    rcases writeRecv_cases st st' p hstep with h | ⟨b1, h, hv⟩
    · exact ⟨b, by rw [h, hb], rfl⟩
    · by_cases hk : k = p.tbk
      · refine ⟨b1, by rw [h, hk]; exact mapGet_mapSet_self _ _ _, hv b (by rw [← hk]; exact hb)⟩
      · exact ⟨b, by rw [h]; simp only; rw [mapGet_mapSet_of_ne hk, hb], rfl⟩
  · intro order
    exact foldl_flushKey_variant grow order (st, NewColumnSeriesMap) k hb

/-- Witness of C9: the key `T` of the worker that received one trade under `T`. -/
theorem variant_never_changes_witness :
    (∀ p st', writeRecv stOneTrade p = some st' →
      ∃ b', mapGet "T" st'.dataBuckets = some b' ∧
        b'.isQuotes = (Bucket.trades [exTrade]).isQuotes) ∧
    (∀ order, ∃ b',
      mapGet "T" (writeTimeout growDouble sinkOk order stOneTrade).state.dataBuckets = some b' ∧
      b'.isQuotes = (Bucket.trades [exTrade]).isQuotes) :=
  variant_never_changes growDouble sinkOk stOneTrade "T" (.trades [exTrade]) rfl

/-- C10 (a buffer entry is never deleted): for every worker state, every key
present before an append step that completes is present after it, and a flush
cycle leaves the keys of the buffer map exactly as they were. -/
theorem buffer_entry_never_deleted (grow : Nat → Nat) (WriteCSM : Batch → Bool)
    (st : WorkerState) :
    (∀ p st' k, writeRecv st p = some st' → k ∈ mapKeys st.dataBuckets →
      k ∈ mapKeys st'.dataBuckets) ∧
    (∀ order, mapKeys (writeTimeout grow WriteCSM order st).state.dataBuckets =
      mapKeys st.dataBuckets) := by
  constructor
  · intro p st' k hstep hk
    rcases writeRecv_cases st st' p hstep with h | ⟨b1, h, _⟩
    · rw [h]; exact hk
    · rw [h]
      exact mem_mapKeys_mapSet _ _ _ hk
  · intro order
    exact foldl_flushKey_mapKeys grow order (st, NewColumnSeriesMap)

/-! ## The trade columns of the last key of a cycle -/

/-- The trade columns are right when no later key overwrites them: in every
reachable worker state, for a key `k` whose buffer holds the trades `b`, with at
least one, and a flush cycle in which every key that `range` yields after `k` has
an empty buffer, the batch handed to the Storage Sink for `k` has exactly the
four columns `Epoch`, `Nanoseconds`, `Price`, `Size`, and entry `i` of each is the
corresponding field of the `i`-th trade, whatever quote or trade keys were
flushed before `k`. -/
theorem trade_columns_of_last_key (grow : Nat → Nat) (WriteCSM : Batch → Bool)
    (pre post : List TimeBucketKey) (st : WorkerState) (k : TimeBucketKey) (b : List trade)
    (hr : Reachable grow st) (ho : RangeOrder (pre ++ k :: post) st.dataBuckets)
    (hb : mapGet k st.dataBuckets = some (.trades b)) (hne : b ≠ [])
    (hpost : ∀ k' ∈ post, ∀ b', mapGet k' st.dataBuckets = some b' → b'.len = 0) :
    mapGet k (writeTimeout grow WriteCSM (pre ++ k :: post) st).batch =
      some [("Epoch", b.map trade.epoch), ("Nanoseconds", b.map trade.nanos),
            ("Price", b.map trade.px), ("Size", b.map trade.sz)] := by
  obtain ⟨hc, hnd⟩ := hr.invariant
  have hl : (pre ++ k :: post).Nodup := ho.nodup hnd
  have hpre : k ∉ pre := fun h => (List.nodup_append.1 hl).2.2 h (by simp)
  have hpostk : ∀ k' ∈ post, k' ∉ pre ++ [k] := by
    intro k' hk' hmem
    rcases List.mem_append.1 hmem with h | h
    · exact (List.nodup_append.1 hl).2.2 h (by simp [hk'])
    · have hk : k' = k := by simpa using h
      subst hk
      exact (List.nodup_cons.1 (List.nodup_append.1 hl).2.1).1 hk'
  obtain ⟨p1, p2⟩ := foldl_flushKey_of_not_mem grow pre (st, NewColumnSeriesMap) hpre
  have pc := foldl_flushKey_clear grow pre (st, NewColumnSeriesMap) hc
  have pq := foldl_flushKey_tradeScratchOK grow pre (st, NewColumnSeriesMap) hr.tradeScratchOK
  have hloop : flushLoop grow (pre ++ k :: post) st =
      flushKey grow (pre.foldl (flushKey grow) (st, NewColumnSeriesMap)) k := by
    unfold flushLoop
    rw [List.foldl_append, List.foldl_cons]
    apply foldl_flushKey_empty_keys grow post _ (flushKey_clear grow _ k pc)
    intro k' hk' b' hb'
    have := (foldl_flushKey_of_not_mem grow (pre ++ [k]) (st, NewColumnSeriesMap)
      (hpostk k' hk')).1
    rw [List.foldl_append, List.foldl_cons, List.foldl_nil] at this
    rw [this] at hb'
    exact hpost k' hk' b' hb'
  show mapGet k (readCSM (flushLoop grow (pre ++ k :: post) st).1.heap
    (flushLoop grow (pre ++ k :: post) st).2) = _
  rw [hloop]
  exact flushKey_trades_columns grow _ k pc pq (by rw [p1]; exact hb) hne (by rw [p2]; rfl)

/-- The trade columns of a last key, at a concrete input: a quote key flushed
first, then the trade key `T` with two trades. -/
theorem trade_columns_of_last_key_witness :
    mapGet "T" (writeTimeout growDouble sinkOk (["K"] ++ "T" :: [])
      { WorkerState.init with
        dataBuckets := [("K", .quotes [exQuote 1000]), ("T", .trades [exTrade, exTrade2])] }).batch =
      some [("Epoch", [exTrade, exTrade2].map trade.epoch),
            ("Nanoseconds", [exTrade, exTrade2].map trade.nanos),
            ("Price", [exTrade, exTrade2].map trade.px),
            ("Size", [exTrade, exTrade2].map trade.sz)] :=
  trade_columns_of_last_key growDouble sinkOk ["K"] [] _ "T" [exTrade, exTrade2]
    (Reachable.recv ⟨"T", .trade exTrade2⟩
      (Reachable.recv ⟨"T", .trade exTrade⟩
        (Reachable.recv ⟨"K", .quote (exQuote 1000)⟩ Reachable.init rfl) rfl) rfl)
    (List.Perm.refl _) rfl (by simp) (by simp)

/-! ## Concurrent callers of `Write` -/

theorem CallersInv.init (calls : List writePacket) : CallersInv (Callers.init calls) := by
  refine ⟨rfl, fun i hi => ?_⟩
  simp [Callers.init, List.getD_eq_getElem?_getD, List.getElem?_map] at hi

theorem pcs_lt_of_getElem? {l : List Nat} {i pc : Nat} (h : l[i]? = some pc) : i < l.length := by
  by_contra hge
  rw [List.getElem?_eq_none (by omega)] at h
  cases h

theorem CallersInv.step (calls : List writePacket) (c : Callers) (i : Nat) (h : CallersInv c) :
    CallersInv (stepCall calls c i) := by
  obtain ⟨hw, hp⟩ := h
  unfold stepCall
  split
  · next pc pkt hpc _ =>
    match pc, hpc with
    | 0, hpc =>
      simp only [WriteSteps, List.getElem?_cons_zero]
      constructor
      · show (onceDo c.proc).workers = if (onceDo c.proc).onceDone then 1 else 0
        unfold onceDo
        cases hd : c.proc.onceDone
        · simp [hd] at hw
          simp [hw]
        · simp [hd] at hw
          simp [hd, hw]
      · intro j _
        show (onceDo c.proc).onceDone = true
        unfold onceDo
        cases hd : c.proc.onceDone <;> simp [hd]
    | 1, hpc =>
      have hi : c.proc.onceDone = true :=
        hp i (by simp [List.getD_eq_getElem?_getD, hpc])
      simp only [WriteSteps, List.getElem?_cons_succ, List.getElem?_cons_zero]
      exact ⟨hw, fun j _ => hi⟩
    | n + 2, hpc =>
      simp only [WriteSteps, List.getElem?_cons_succ, List.getElem?_nil]
      exact ⟨hw, hp⟩
  · exact ⟨hw, hp⟩

theorem CallersInv.run (calls : List writePacket) (sched : List Nat) (c : Callers)
    (h : CallersInv c) : CallersInv (sched.foldl (stepCall calls) c) := by
  induction sched generalizing c with
  | nil => exact h
  | cons i sched ih => exact ih _ (CallersInv.step calls c i h)

theorem stepCall_pcs_mono (calls : List writePacket) (c : Callers) (i j : Nat) :
    c.pcs.getD j 0 ≤ (stepCall calls c i).pcs.getD j 0 := by
  unfold stepCall
  split
  · next pc pkt hpc _ =>
    split
    · by_cases hij : i = j
      · subst hij
        have hlt := pcs_lt_of_getElem? hpc
        simp [List.getD_eq_getElem?_getD, List.getElem?_set, hpc, hlt]
      · simp [List.getD_eq_getElem?_getD, List.getElem?_set, hij]
    · exact Nat.le_refl _
  · exact Nat.le_refl _

theorem foldl_stepCall_pcs_mono (calls : List writePacket) (sched : List Nat) (c : Callers)
    (j : Nat) : c.pcs.getD j 0 ≤ (sched.foldl (stepCall calls) c).pcs.getD j 0 := by
  induction sched generalizing c with
  | nil => exact Nat.le_refl _
  | cons i sched ih => exact Nat.le_trans (stepCall_pcs_mono calls c i j) (ih _)

/-- A call that runs its two statements without interruption has the effect of
`Write` on the process, and has then returned. -/
theorem stepCall_twice (calls : List writePacket) (c : Callers) (i : Nat) (pkt : writePacket)
    (hpc : c.pcs[i]? = some 0) (hpkt : calls[i]? = some pkt) :
    stepCall calls (stepCall calls c i) i =
      { proc := Write c.proc pkt, pcs := c.pcs.set i 2 } := by
  have hlt := pcs_lt_of_getElem? hpc
  have h1 : stepCall calls c i = { proc := onceDo c.proc, pcs := c.pcs.set i 1 } := by
    simp [stepCall, hpc, hpkt, WriteSteps]
  rw [h1]
  simp [stepCall, hpkt, WriteSteps, Write, List.getElem?_set, hlt]

theorem Write_workers (p : Process) (pkt : writePacket) :
    (Write p pkt).workers = (if p.onceDone then p.workers else p.workers + 1) ∧
    (Write p pkt).onceDone = true ∧ (Write p pkt).queue = p.queue ++ [pkt] := by
  cases hd : p.onceDone <;> simp [Write, WriteSteps, chanSend, onceDo, hd]

theorem foldl_Write (pkts : List writePacket) (p : Process) (hd : p.onceDone = true) :
    (pkts.foldl Write p).workers = p.workers ∧ (pkts.foldl Write p).onceDone = true ∧
    (pkts.foldl Write p).queue = p.queue ++ pkts := by
  induction pkts generalizing p with
  | nil => simp [hd]
  | cons pkt pkts ih =>
    obtain ⟨w, d, q⟩ := Write_workers p pkt
    obtain ⟨w', d', q'⟩ := ih (Write p pkt) d
    rw [hd] at w
    simp only [List.foldl_cons]
    exact ⟨by rw [w', w]; rfl, d', by rw [q', q]; simp⟩

/-! ## Counting the records of a run: the lemmas -/

theorem writeRecv_bufferLen (st st' : WorkerState) (p : writePacket) (k : TimeBucketKey)
    (h : writeRecv st p = some st') :
    bufferLen k st' =
      bufferLen k st + (if p.tbk = k ∧ p.data.isRecord = true then 1 else 0) := by
  obtain ⟨tbk, data⟩ := p
  by_cases hk : tbk = k
  · subst hk
    unfold writeRecv at h
    dsimp only at h
    split at h
    · next bucket hb =>
      split at h
      · split at h
        · cases h
          simp [bufferLen, mapGet_mapSet_self, hb, Bucket.len, PacketData.isRecord]
        · cases h
      · split at h
        · cases h
          simp [bufferLen, mapGet_mapSet_self, hb, Bucket.len, PacketData.isRecord]
        · cases h
      · cases h
        simp [PacketData.isRecord]
    · next hb =>
      split at h
      · cases h
        simp [bufferLen, mapGet_mapSet_self, hb, Bucket.len, PacketData.isRecord]
      · cases h
        simp [bufferLen, mapGet_mapSet_self, hb, Bucket.len, PacketData.isRecord]
      · cases h
        simp [PacketData.isRecord]
  · have hk' : k ≠ tbk := fun h => hk h.symm
    rcases writeRecv_cases st st' ⟨tbk, data⟩ h with h1 | ⟨b, h1, _⟩
    · rw [h1]; simp [hk]
    · rw [h1]
      simp [bufferLen, mapGet_mapSet_of_ne hk', hk]

theorem flush_epoch_length (grow : Nat → Nat) (WriteCSM : Batch → Bool)
    (order : List TimeBucketKey) (st : WorkerState) (k : TimeBucketKey)
    (hr : Reachable grow st) (ho : RangeOrder order st.dataBuckets) :
    ((writeTimeout grow WriteCSM order st).batch.column k "Epoch").length = bufferLen k st ∧
    bufferLen k (writeTimeout grow WriteCSM order st).state = 0 := by
  obtain ⟨hc, hnd⟩ := hr.invariant
  have hbatch : mapGet k (writeTimeout grow WriteCSM order st).batch =
      (mapGet k (order.foldl (flushKey grow) (st, NewColumnSeriesMap)).2).map
        fun cs => cs.map fun c => (c.1, (flushLoop grow order st).1.heap.read c.2) :=
    mapGet_readCSM _ _ k
  have hstate : (writeTimeout grow WriteCSM order st).state.dataBuckets =
      (order.foldl (flushKey grow) (st, NewColumnSeriesMap)).1.dataBuckets := rfl
  unfold Batch.column bufferLen
  rw [hbatch, hstate]
  cases hb : mapGet k st.dataBuckets with
  | none =>
    have hk : k ∉ order := fun h => by
      obtain ⟨v, hv⟩ := (mem_mapKeys_iff k _).1 ((ho.mem_iff k).1 h)
      rw [hb] at hv
      cases hv
    obtain ⟨h1, h2⟩ := foldl_flushKey_of_not_mem grow order (st, NewColumnSeriesMap) hk
    rw [h1, h2, hb]
    simp [NewColumnSeriesMap, mapGet]
  | some b =>
    have hk : k ∈ order := (ho.mem_iff k).2 ((mem_mapKeys_iff k _).2 ⟨b, hb⟩)
    obtain ⟨h0, h1⟩ :=
      foldl_flushKey_of_mem grow order (st, NewColumnSeriesMap) hc (ho.nodup hnd) hk rfl hb
    rcases Nat.eq_zero_or_pos b.len with hz | hp
    · obtain ⟨g1, g2⟩ := h0 hz
      rw [g1, g2]
      simp [hz]
    · obtain ⟨g1, cols, g2, g3, g4⟩ := h1 hp
      rw [g1, g2]
      have hne : ∃ c0 rest, cols = c0 :: rest ∧ c0.1 = "Epoch" := by
        cases cols with
        | nil => cases b <;> simp [Bucket.columnNames] at g3
        | cons c0 rest =>
          refine ⟨c0, rest, rfl, ?_⟩
          cases b <;> simp [Bucket.columnNames] at g3 <;> exact g3.1
      obtain ⟨c0, rest, rfl, hname⟩ := hne
      simp [hname, Heap.read_length, g4 c0 (by simp), Bucket.drained_len]

theorem records_conserved_from (grow : Nat → Nat) (WriteCSM : Batch → Bool)
    (k : TimeBucketKey) (evs : List Event) (st0 st : WorkerState) (batches : List Batch)
    (hr : Reachable grow st0) (ho : OrdersOK grow evs st0)
    (hrun : write grow WriteCSM evs st0 = (some st, batches)) :
    submittedUnder k evs + bufferLen k st0 =
      (columnOver batches k "Epoch").length + bufferLen k st := by
  induction evs generalizing st0 batches with
  | nil =>
    simp only [write, Prod.mk.injEq, Option.some.injEq] at hrun
    obtain ⟨rfl, rfl⟩ := hrun
    simp [submittedUnder, columnOver]
  | cons e evs ih =>
    cases e with
    | packet p =>
      simp only [write] at hrun
      simp only [OrdersOK] at ho
      cases hstep : writeRecv st0 p with
      | none =>
        rw [hstep] at hrun
        simp at hrun
      | some st1 =>
        rw [hstep] at hrun ho
        have := ih st1 batches (Reachable.recv p hr hstep) ho hrun
        have hlen := writeRecv_bufferLen st0 st1 p k hstep
        simp only [submittedUnder]
        omega
    | timeout order =>
      simp only [write, Prod.mk.injEq] at hrun
      obtain ⟨h1, h2⟩ := hrun
      obtain ⟨ho1, ho2⟩ := ho
      have hrest : write grow WriteCSM evs (writeTimeout grow WriteCSM order st0).state =
          (some st, (write grow WriteCSM evs (writeTimeout grow WriteCSM order st0).state).2) := by
        rw [← h1]
      have := ih _ _ (Reachable.timeout order hr ho1) ho2 hrest
      obtain ⟨f1, f2⟩ := flush_epoch_length grow WriteCSM order st0 k hr ho1
      have f2' : bufferLen k (flushLoop grow order st0).1 = 0 := f2
      rw [← h2]
      simp only [submittedUnder, columnOver, List.foldr_cons, List.length_append]
      simp only [columnOver] at this
      omega

/-! ## The claims on the entry point, the scratch slices and the run as a whole -/

/-- C11 (lazy single worker): for any calls of `Write` running concurrently under
any schedule, once some call has got past `once.Do` exactly one worker has been
started, and it stays exactly one however the schedule goes on; at no moment of
any schedule is there more than one.  Of `Write` itself: a call that finds
`once` already run starts no worker; the first call starts exactly one, and
after any further calls there is still exactly one; and a call that the
scheduler lets run its two statements without interruption does to the process
what `Write` does. -/
theorem lazy_single_worker (calls : List writePacket) (sched : List Nat) (i : Nat)
    (hpast : 1 ≤ (runCalls calls sched).pcs.getD i 0) :
    (runCalls calls sched).proc.workers = 1 ∧
    (∀ more, (runCalls calls (sched ++ more)).proc.workers = 1) ∧
    (∀ other, (runCalls calls other).proc.workers ≤ 1) ∧
    (∀ p pkt, p.onceDone = true → (Write p pkt).workers = p.workers) ∧
    (∀ pkt pkts, (Write Process.init pkt).workers = 1 ∧
      (pkts.foldl Write (Write Process.init pkt)).workers = 1 ∧
      (pkts.foldl Write (Write Process.init pkt)).queue = pkt :: pkts) ∧
    (∀ c j pkt, c.pcs[j]? = some 0 → calls[j]? = some pkt →
      stepCall calls (stepCall calls c j) j =
        { proc := Write c.proc pkt, pcs := c.pcs.set j 2 }) := by
  have one : ∀ s, 1 ≤ (runCalls calls s).pcs.getD i 0 → (runCalls calls s).proc.workers = 1 := by
    intro s hs
    obtain ⟨hw, hp⟩ := CallersInv.run calls s _ (CallersInv.init calls)
    have hd := hp i hs
    unfold runCalls
    rw [hw, hd]
    rfl
  refine ⟨one sched hpast, fun more => one _ ?_, fun other => ?_, fun p pkt hd => ?_,
    fun pkt pkts => ?_, fun c j pkt h1 h2 => stepCall_twice calls c j pkt h1 h2⟩
  · have := foldl_stepCall_pcs_mono calls more (runCalls calls sched) i
    unfold runCalls at this hpast ⊢
    rw [List.foldl_append]
    omega
  · obtain ⟨hw, -⟩ := CallersInv.run calls other _ (CallersInv.init calls)
    unfold runCalls
    rw [hw]
    split <;> omega
  · rw [(Write_workers p pkt).1, hd]
    rfl
  · obtain ⟨w, d, q⟩ := Write_workers Process.init pkt
    obtain ⟨w', -, q'⟩ := foldl_Write pkts (Write Process.init pkt) d
    have w1 : (Write Process.init pkt).workers = 1 := by rw [w]; rfl
    exact ⟨w1, by rw [w', w1], by rw [q', q]; rfl⟩

/-- Witness of C11: two calls, the second reaching `once.Do` first, the first
returning before the second. -/
theorem lazy_single_worker_witness :
    (runCalls [⟨"K", .quote (exQuote 1000)⟩, ⟨"T", .trade exTrade⟩] [1, 0, 0, 1]).proc.workers = 1 ∧
    (∀ more, (runCalls [⟨"K", .quote (exQuote 1000)⟩, ⟨"T", .trade exTrade⟩]
      ([1, 0, 0, 1] ++ more)).proc.workers = 1) ∧
    (∀ other, (runCalls [⟨"K", .quote (exQuote 1000)⟩, ⟨"T", .trade exTrade⟩]
      other).proc.workers ≤ 1) ∧
    (∀ p pkt, p.onceDone = true → (Write p pkt).workers = p.workers) ∧
    (∀ pkt pkts, (Write Process.init pkt).workers = 1 ∧
      (pkts.foldl Write (Write Process.init pkt)).workers = 1 ∧
      (pkts.foldl Write (Write Process.init pkt)).queue = pkt :: pkts) ∧
    (∀ c j pkt, c.pcs[j]? = some 0 →
      [(⟨"K", .quote (exQuote 1000)⟩ : writePacket), ⟨"T", .trade exTrade⟩][j]? = some pkt →
      stepCall [⟨"K", .quote (exQuote 1000)⟩, ⟨"T", .trade exTrade⟩]
        (stepCall [⟨"K", .quote (exQuote 1000)⟩, ⟨"T", .trade exTrade⟩] c j) j =
        { proc := Write c.proc pkt, pcs := c.pcs.set j 2 }) :=
  lazy_single_worker [⟨"K", .quote (exQuote 1000)⟩, ⟨"T", .trade exTrade⟩] [1, 0, 0, 1] 0
    (by decide)

/-- C12 (the scratch arrays are cleared independently and share no storage):
evaluated on one flush cycle over the key `K` holding one quote, for every growth
policy of `append`.  After the cycle every scratch slice has length 0, but
`askPx` is the very slice `bidPx` (line 120 reads `askPx = bidPx[:0]`): same
backing array, capacity at least 1.  While the next quote is built, the append
of a bid price 7 makes `bidPx` read `[7]`, and the append of an ask price 9 that
follows makes the same `bidPx` read `[9]`. -/
theorem askPx_shares_bidPx (grow : Nat → Nat) :
    writeRecv WorkerState.init ⟨"K", .quote (exQuote 1000)⟩ = some stOneQuote ∧
    ScratchClear (flushLoop grow ["K"] stOneQuote).1 ∧
    (flushLoop grow ["K"] stOneQuote).1.askPx = (flushLoop grow ["K"] stOneQuote).1.bidPx ∧
    0 < (flushLoop grow ["K"] stOneQuote).1.bidPx.cap ∧
    ¬ Apart (flushLoop grow ["K"] stOneQuote).1.bidPx (flushLoop grow ["K"] stOneQuote).1.askPx ∧
    (sliceAppend grow (flushLoop grow ["K"] stOneQuote).1.heap
        (flushLoop grow ["K"] stOneQuote).1.bidPx 7).1.read
      (sliceAppend grow (flushLoop grow ["K"] stOneQuote).1.heap
        (flushLoop grow ["K"] stOneQuote).1.bidPx 7).2 = [7] ∧
    (sliceAppend grow
        (sliceAppend grow (flushLoop grow ["K"] stOneQuote).1.heap
          (flushLoop grow ["K"] stOneQuote).1.bidPx 7).1
        (flushLoop grow ["K"] stOneQuote).1.askPx 9).1.read
      (sliceAppend grow (flushLoop grow ["K"] stOneQuote).1.heap
        (flushLoop grow ["K"] stOneQuote).1.bidPx 7).2 = [9] := by
  refine ⟨rfl, ?_⟩
  simp [flushLoop, flushKey, stOneQuote, WorkerState.init, mapGet, mapSet, ScratchClear, Apart,
    appendQuote, sliceAppend, Slice.nil, Slice.trim, growslice, NewColumnSeriesMap, AddColumn,
    Heap.read, exQuote, List.range, List.range.loop]

/-- C13 (the append algorithm): for every worker state, key `k` and dequeued
Trade or Quote record, the append step completes with a state in which, when `k`
was absent, the buffer of `k` is the one-element sequence of the record, of the
record's variant, and when `k` was present with a buffer `b` of the record's
variant, the buffer of `k` is `b` followed by the record. -/
theorem append_step_appends (st : WorkerState) (k : TimeBucketKey) (q : quote) (t : trade) :
    (mapGet k st.dataBuckets = none →
      (∃ st', writeRecv st ⟨k, .quote q⟩ = some st' ∧
        mapGet k st'.dataBuckets = some (.quotes [q])) ∧
      (∃ st', writeRecv st ⟨k, .trade t⟩ = some st' ∧
        mapGet k st'.dataBuckets = some (.trades [t]))) ∧
    (∀ b, mapGet k st.dataBuckets = some (.quotes b) →
      ∃ st', writeRecv st ⟨k, .quote q⟩ = some st' ∧
        mapGet k st'.dataBuckets = some (.quotes (b ++ [q]))) ∧
    (∀ b, mapGet k st.dataBuckets = some (.trades b) →
      ∃ st', writeRecv st ⟨k, .trade t⟩ = some st' ∧
        mapGet k st'.dataBuckets = some (.trades (b ++ [t]))) := by
  refine ⟨fun h => ⟨⟨{ st with dataBuckets := mapSet k (.quotes [q]) st.dataBuckets }, ?_,
        mapGet_mapSet_self _ _ _⟩,
      ⟨{ st with dataBuckets := mapSet k (.trades [t]) st.dataBuckets }, ?_,
        mapGet_mapSet_self _ _ _⟩⟩,
    fun b h => ⟨{ st with dataBuckets := mapSet k (.quotes (b ++ [q])) st.dataBuckets }, ?_,
      mapGet_mapSet_self _ _ _⟩,
    fun b h => ⟨{ st with dataBuckets := mapSet k (.trades (b ++ [t])) st.dataBuckets }, ?_,
      mapGet_mapSet_self _ _ _⟩⟩ <;>
  simp only [writeRecv, h]

/-- C14 (the columns of an earlier key survive the later keys of the cycle):
evaluated on one flush cycle over the quote key `K` holding `exQuote 1000` and
the trade key `T` holding `exTrade2`, with `range` yielding `K` first, for every
growth policy of `append` and every Storage Sink.  Right after `K` is processed
its recorded columns read `Epoch=[1000]`, `Nanoseconds=[0]`; in the map handed to
the Storage Sink they read `Epoch=[2001]`, `Nanoseconds=[1]`, the values of the
trade under `T`, which the appends for `T` wrote into the re-used scratch
arrays. -/
theorem earlier_key_columns_overwritten (grow : Nat → Nat) (WriteCSM : Batch → Bool) :
    (write grow WriteCSM
      [.packet ⟨"K", .quote (exQuote 1000)⟩, .packet ⟨"T", .trade exTrade2⟩]
      WorkerState.init).1 = some stQuoteAndTrade ∧
    readCSM (flushKey grow (stQuoteAndTrade, NewColumnSeriesMap) "K").1.heap
      (flushKey grow (stQuoteAndTrade, NewColumnSeriesMap) "K").2 =
      [("K", [("Epoch", [1000]), ("Nanoseconds", [0]), ("BidPrice", [0x41200000]),
              ("AskPrice", [0x4121999A]), ("BidSize", [5]), ("AskSize", [7])])] ∧
    (writeTimeout grow WriteCSM ["K", "T"] stQuoteAndTrade).batch =
      [("K", [("Epoch", [2001]), ("Nanoseconds", [1]), ("BidPrice", [0x41200000]),
              ("AskPrice", [0x4121999A]), ("BidSize", [5]), ("AskSize", [7])]),
       ("T", [("Epoch", [2001]), ("Nanoseconds", [1]), ("Price", [0x41200000]),
              ("Size", [3])])] := by
  refine ⟨rfl, ?_, ?_⟩ <;>
  simp [writeTimeout, flushLoop, flushKey, stQuoteAndTrade, WorkerState.init, mapGet, mapSet,
    appendQuote, appendTrade, sliceAppend, Slice.nil, Slice.trim, growslice, NewColumnSeriesMap,
    AddColumn, readCSM, Heap.read, exQuote, exTrade2, List.range, List.range.loop]

/-- C15 (no record is lost or duplicated by count): for every run of the worker
from the empty state that completes (no append step panicked, as when the records
under every key are of one variant), whatever order each flush cycle ranges in,
the number of Trade and Quote records submitted under key `k` equals the sum over
the flush cycles of the length of the `Epoch` column emitted for `k`, plus the
current length of the buffer of `k`. -/
theorem records_conserved (grow : Nat → Nat) (WriteCSM : Batch → Bool) (k : TimeBucketKey)
    (evs : List Event) (st : WorkerState) (batches : List Batch)
    (ho : OrdersOK grow evs WorkerState.init)
    (hrun : write grow WriteCSM evs WorkerState.init = (some st, batches)) :
    submittedUnder k evs = (columnOver batches k "Epoch").length + bufferLen k st := by
  have := records_conserved_from grow WriteCSM k evs WorkerState.init st batches
    Reachable.init ho hrun
  have h0 : bufferLen k WorkerState.init = 0 := rfl
  omega

/-- Witness of C15: two quotes under `K`, a flush cycle, a third quote. -/
theorem records_conserved_witness :
    submittedUnder "K"
        [.packet ⟨"K", .quote (exQuote 1000)⟩, .packet ⟨"K", .quote (exQuote 1001)⟩,
         .timeout ["K"], .packet ⟨"K", .quote (exQuote 1002)⟩] =
      (columnOver
        [[("K", [("Epoch", [1000, 1001]), ("Nanoseconds", [0, 0]),
                 ("BidPrice", [0x41200000, 0x41200000]), ("AskPrice", [0x4121999A, 0x4121999A]),
                 ("BidSize", [5, 5]), ("AskSize", [7, 7])])]] "K" "Epoch").length +
      bufferLen "K" ((write growDouble sinkOk
        [.packet ⟨"K", .quote (exQuote 1000)⟩, .packet ⟨"K", .quote (exQuote 1001)⟩,
         .timeout ["K"], .packet ⟨"K", .quote (exQuote 1002)⟩] WorkerState.init).1.getD
        WorkerState.init) :=
  records_conserved growDouble sinkOk "K"
    [.packet ⟨"K", .quote (exQuote 1000)⟩, .packet ⟨"K", .quote (exQuote 1001)⟩,
     .timeout ["K"], .packet ⟨"K", .quote (exQuote 1002)⟩] _ _
    ⟨List.Perm.refl _, trivial⟩ rfl

/-- C16 (a second flush cycle is a no-op): in every reachable worker state, a
flush cycle that immediately follows a flush cycle, whatever order its `range`
takes, hands the empty map to the Storage Sink and leaves the worker state, every
buffer, every scratch slice and the heap, as the first cycle left it. -/
theorem second_flush_is_noop (grow : Nat → Nat) (WriteCSM : Batch → Bool)
    (order1 order2 : List TimeBucketKey) (st : WorkerState) (hr : Reachable grow st)
    (h1 : RangeOrder order1 st.dataBuckets) :
    (writeTimeout grow WriteCSM order2 (writeTimeout grow WriteCSM order1 st).state).batch = [] ∧
    (writeTimeout grow WriteCSM order2 (writeTimeout grow WriteCSM order1 st).state).state =
      (writeTimeout grow WriteCSM order1 st).state := by
  have hc : ScratchClear (flushLoop grow order1 st).1 :=
    foldl_flushKey_clear grow order1 (st, NewColumnSeriesMap) hr.invariant.1
  have he : ∀ k ∈ order2, ∀ b, mapGet k (flushLoop grow order1 st).1.dataBuckets = some b →
      b.len = 0 := by
    intro k _ b hb
    have hk : k ∈ order1 := by
      have hm : k ∈ mapKeys (order1.foldl (flushKey grow) (st, NewColumnSeriesMap)).1.dataBuckets :=
        (mem_mapKeys_iff k _).2 ⟨b, hb⟩
      rw [foldl_flushKey_mapKeys] at hm
      exact (h1.mem_iff k).2 hm
    exact foldl_flushKey_len_zero grow order1 _ k (Or.inl hk) hb
  have hloop : flushLoop grow order2 (flushLoop grow order1 st).1 =
      ((flushLoop grow order1 st).1, NewColumnSeriesMap) :=
    foldl_flushKey_empty_keys grow order2 _ hc he
  constructor
  · show readCSM _ (flushLoop grow order2 (flushLoop grow order1 st).1).2 = []
    rw [hloop]
    rfl
  · show (flushLoop grow order2 (flushLoop grow order1 st).1).1 = (flushLoop grow order1 st).1
    rw [hloop]

/-- Witness of C16: two flush cycles on the worker that received one quote under
`K`. -/
theorem second_flush_is_noop_witness :
    (writeTimeout growDouble sinkOk ["K"]
      (writeTimeout growDouble sinkOk ["K"] stOneQuote).state).batch = [] ∧
    (writeTimeout growDouble sinkOk ["K"]
      (writeTimeout growDouble sinkOk ["K"] stOneQuote).state).state =
      (writeTimeout growDouble sinkOk ["K"] stOneQuote).state :=
  second_flush_is_noop growDouble sinkOk ["K"] ["K"] stOneQuote
    (Reachable.recv ⟨"K", .quote (exQuote 1000)⟩ Reachable.init rfl)
    (List.Perm.refl _)

/-- C17 (an append step touches only the packet's key): for every worker state
and every packet under key `p.tbk` whose append step completes, every other key
has after the step what it had before: it is present exactly when it was, with
the same buffer. -/
theorem append_step_frame (st st' : WorkerState) (p : writePacket) (k' : TimeBucketKey)
    (hstep : writeRecv st p = some st') (hk : k' ≠ p.tbk) :
    mapGet k' st'.dataBuckets = mapGet k' st.dataBuckets := by
  rcases writeRecv_cases st st' p hstep with h | ⟨b, h, _⟩
  · rw [h]
  · rw [h]
    exact mapGet_mapSet_of_ne hk _ _

/-- Witness of C17: a second trade under `T` leaves the (absent) key `K` as it
was. -/
theorem append_step_frame_witness :
    mapGet "K" ({ stOneTrade with
      dataBuckets := [("T", .trades [exTrade, exTrade2])] } : WorkerState).dataBuckets =
      mapGet "K" stOneTrade.dataBuckets :=
  append_step_frame stOneTrade _ ⟨"T", .trade exTrade2⟩ "K" rfl (by decide)

/-! ## What a batch can hold: the elements of the slices -/

theorem getD_set_cases (blk : List Int) (n i : Nat) (x : Int) :
    (blk.set n x).getD i 0 = blk.getD i 0 ∨ (blk.set n x).getD i 0 = x := by
  by_cases hin : n = i
  · subst hin
    by_cases hlt : n < blk.length
    · right
      simp [List.getD_eq_getElem?_getD, List.getElem?_set, hlt]
    · left
      rw [List.set_eq_of_length_le (by omega)]
  · left
    simp [List.getD_eq_getElem?_getD, List.getElem?_set, hin]

theorem heap_set_getD_cases (h : Heap) (a j : Nat) (blk : List Int) :
    (h.set a blk).getD j [] = h.getD j [] ∨ ((h.set a blk).getD j [] = blk ∧ j = a) := by
  by_cases haj : a = j
  · subst haj
    by_cases hlt : a < h.length
    · exact Or.inr ⟨getD_set_self_block h blk a hlt, rfl⟩
    · left
      rw [List.set_eq_of_length_le (by omega)]
  · exact Or.inl (getD_set_of_ne_block h blk haj)

theorem mem_read_iff (h : Heap) (t : Slice) (y : Int) :
    y ∈ h.read t ↔ ∃ i, i < t.len ∧ (h.getD t.arr []).getD i 0 = y := by
  simp [Heap.read]

theorem sliceAppend_read_other_mem (grow : Nat → Nat) (h : Heap) (s t : Slice) (x : Int)
    (ht : SliceOK h t) (y : Int) (hy : y ∈ (sliceAppend grow h s x).1.read t) :
    y ∈ h.read t ∨ y = x := by
  obtain ⟨i, hi, hyi⟩ := (mem_read_iff _ _ _).1 hy
  unfold sliceAppend at hyi
  split at hyi
  · dsimp only at hyi
    rcases heap_set_getD_cases h s.arr t.arr ((h.getD s.arr []).set s.len x) with hb | ⟨hb, hts⟩
    · rw [hb] at hyi
      exact Or.inl ((mem_read_iff _ _ _).2 ⟨i, hi, hyi⟩)
    · rw [hb, ← hts] at hyi
      rcases getD_set_cases (h.getD t.arr []) s.len i x with hc | hc
      · rw [hc] at hyi
        exact Or.inl ((mem_read_iff _ _ _).2 ⟨i, hi, hyi⟩)
      · rw [hc] at hyi
        exact Or.inr hyi.symm
  · dsimp only at hyi
    obtain ⟨hle, hblk⟩ := ht
    rcases hblk with h0 | ⟨hlt, _⟩
    · omega
    · rw [getD_append_left_block h _ _ hlt] at hyi
      exact Or.inl ((mem_read_iff _ _ _).2 ⟨i, hi, hyi⟩)

theorem sliceAppend_good_other (V : Int → Prop) (grow : Nat → Nat) (h : Heap) (s : Slice)
    (x : Int) (hx : V x) : HeapStep V h (sliceAppend grow h s x).1 := by
  intro t ht
  refine ⟨sliceAppend_ok_other grow h s t x ht.1, fun y hy => ?_⟩
  rcases sliceAppend_read_other_mem grow h s t x ht.1 y hy with h1 | h1
  · exact ht.2 y h1
  · rw [h1]; exact hx

theorem sliceAppend_good_self (V : Int → Prop) (grow : Nat → Nat) (h : Heap) (s : Slice)
    (x : Int) (hx : V x) (hs : Good V h s) :
    Good V (sliceAppend grow h s x).1 (sliceAppend grow h s x).2 := by
  refine ⟨sliceAppend_ok grow h s x hs.1, fun y hy => ?_⟩
  rw [sliceAppend_read_self grow h s x hs.1] at hy
  rcases List.mem_append.1 hy with h1 | h1
  · exact hs.2 y h1
  · rw [List.mem_singleton.1 h1]; exact hx

theorem HeapStep.trans {V : Int → Prop} {h1 h2 h3 : Heap} (a : HeapStep V h1 h2)
    (b : HeapStep V h2 h3) : HeapStep V h1 h3 :=
  fun t ht => b t (a t ht)

theorem HeapStep.refl (V : Int → Prop) (h : Heap) : HeapStep V h h := fun _ ht => ht

theorem Good.of_len_zero (V : Int → Prop) {h : Heap} {s : Slice} (hs : SliceOK h s)
    (h0 : s.len = 0) : Good V h s :=
  ⟨hs, fun y hy => by simp [Heap.read, h0] at hy⟩

theorem Good.trimmed_good {V : Int → Prop} {h : Heap} {s : Slice} (hs : Good V h s) :
    Good V h s.trim :=
  Good.of_len_zero V hs.1.trimmed rfl

theorem appendQuote_good (V : Int → Prop) (grow : Nat → Nat) (st : WorkerState) (q : quote)
    (hq : ∀ y ∈ q.fields, V y) (hs : ScratchGood V st) :
    ScratchGood V (appendQuote grow st q) ∧ HeapStep V st.heap (appendQuote grow st q).heap := by
  obtain ⟨⟨g1, g2, g3, g4⟩, g5, g6, g7, g8⟩ := hs
  have v1 : V q.epoch := hq _ (by simp [quote.fields])
  have v2 : V q.nanos := hq _ (by simp [quote.fields])
  have v3 : V q.bidPx := hq _ (by simp [quote.fields])
  have v4 : V q.askPx := hq _ (by simp [quote.fields])
  have v5 : V q.bidSz := hq _ (by simp [quote.fields])
  have v6 : V q.askSz := hq _ (by simp [quote.fields])
  have s1 := sliceAppend_good_other V grow st.heap st.epoch q.epoch v1
  have e1 := sliceAppend_good_self V grow st.heap st.epoch q.epoch v1 g1
  have s2 := sliceAppend_good_other V grow (sliceAppend grow st.heap st.epoch q.epoch).1
    st.nanos q.nanos v2
  have e2 := sliceAppend_good_self V grow _ st.nanos q.nanos v2 (s1 _ g2)
  have s3 := sliceAppend_good_other V grow
    (sliceAppend grow (sliceAppend grow st.heap st.epoch q.epoch).1 st.nanos q.nanos).1
    st.bidPx q.bidPx v3
  have e3 := sliceAppend_good_self V grow _ st.bidPx q.bidPx v3 (s2 _ (s1 _ g3))
  have s4 := sliceAppend_good_other V grow
    (sliceAppend grow (sliceAppend grow (sliceAppend grow st.heap st.epoch q.epoch).1 st.nanos
      q.nanos).1 st.bidPx q.bidPx).1 st.askPx q.askPx v4
  have e4 := sliceAppend_good_self V grow _ st.askPx q.askPx v4 (s3 _ (s2 _ (s1 _ g4)))
  have s5 := sliceAppend_good_other V grow
    (sliceAppend grow (sliceAppend grow (sliceAppend grow (sliceAppend grow st.heap st.epoch
      q.epoch).1 st.nanos q.nanos).1 st.bidPx q.bidPx).1 st.askPx q.askPx).1 st.bidSz q.bidSz v5
  have e5 := sliceAppend_good_self V grow _ st.bidSz q.bidSz v5 (s4 _ (s3 _ (s2 _ (s1 _ g6))))
  have s6 := sliceAppend_good_other V grow
    (sliceAppend grow (sliceAppend grow (sliceAppend grow (sliceAppend grow (sliceAppend grow
      st.heap st.epoch q.epoch).1 st.nanos q.nanos).1 st.bidPx q.bidPx).1 st.askPx q.askPx).1
      st.bidSz q.bidSz).1 st.askSz q.askSz v6
  have e6 := sliceAppend_good_self V grow _ st.askSz q.askSz v6
    (s5 _ (s4 _ (s3 _ (s2 _ (s1 _ g7)))))
  have all : HeapStep V st.heap (appendQuote grow st q).heap :=
    fun t ht => s6 _ (s5 _ (s4 _ (s3 _ (s2 _ (s1 _ ht)))))
  exact ⟨⟨⟨s6 _ (s5 _ (s4 _ (s3 _ (s2 _ e1)))), s6 _ (s5 _ (s4 _ (s3 _ e2))),
      s6 _ (s5 _ (s4 _ e3)), s6 _ (s5 _ e4)⟩, all _ g5, s6 _ e5, e6, all _ g8⟩, all⟩

theorem appendTrade_good (V : Int → Prop) (grow : Nat → Nat) (st : WorkerState) (t : trade)
    (hq : ∀ y ∈ t.fields, V y) (hs : ScratchGood V st) :
    ScratchGood V (appendTrade grow st t) ∧ HeapStep V st.heap (appendTrade grow st t).heap := by
  obtain ⟨⟨g1, g2, g3, g4⟩, g5, g6, g7, g8⟩ := hs
  have v1 : V t.epoch := hq _ (by simp [trade.fields])
  have v2 : V t.nanos := hq _ (by simp [trade.fields])
  have v3 : V t.px := hq _ (by simp [trade.fields])
  have v4 : V t.sz := hq _ (by simp [trade.fields])
  have s1 := sliceAppend_good_other V grow st.heap st.epoch t.epoch v1
  have e1 := sliceAppend_good_self V grow st.heap st.epoch t.epoch v1 g1
  have s2 := sliceAppend_good_other V grow (sliceAppend grow st.heap st.epoch t.epoch).1
    st.nanos t.nanos v2
  have e2 := sliceAppend_good_self V grow _ st.nanos t.nanos v2 (s1 _ g2)
  have s3 := sliceAppend_good_other V grow
    (sliceAppend grow (sliceAppend grow st.heap st.epoch t.epoch).1 st.nanos t.nanos).1
    st.px t.px v3
  have e3 := sliceAppend_good_self V grow _ st.px t.px v3 (s2 _ (s1 _ g5))
  have s4 := sliceAppend_good_other V grow
    (sliceAppend grow (sliceAppend grow (sliceAppend grow st.heap st.epoch t.epoch).1 st.nanos
      t.nanos).1 st.px t.px).1 st.sz t.sz v4
  have e4 := sliceAppend_good_self V grow _ st.sz t.sz v4 (s3 _ (s2 _ (s1 _ g8)))
  have all : HeapStep V st.heap (appendTrade grow st t).heap :=
    fun t ht => s4 _ (s3 _ (s2 _ (s1 _ ht)))
  exact ⟨⟨⟨s4 _ (s3 _ (s2 _ e1)), s4 _ (s3 _ e2), all _ g3, all _ g4⟩,
    s4 _ e3, all _ g6, all _ g7, e4⟩, all⟩

theorem foldl_appendQuote_good (V : Int → Prop) (grow : Nat → Nat) (b : List quote)
    (st : WorkerState) (hq : ∀ q ∈ b, ∀ y ∈ q.fields, V y) (hs : ScratchGood V st) :
    ScratchGood V (b.foldl (appendQuote grow) st) ∧
    HeapStep V st.heap (b.foldl (appendQuote grow) st).heap := by
  induction b generalizing st with
  | nil => exact ⟨hs, HeapStep.refl V _⟩
  | cons q b ih =>
    obtain ⟨a1, a2⟩ := appendQuote_good V grow st q (hq q (by simp)) hs
    obtain ⟨b1, b2⟩ := ih (appendQuote grow st q) (fun q' hq' => hq q' (by simp [hq'])) a1
    exact ⟨b1, a2.trans b2⟩

theorem foldl_appendTrade_good (V : Int → Prop) (grow : Nat → Nat) (b : List trade)
    (st : WorkerState) (hq : ∀ t ∈ b, ∀ y ∈ t.fields, V y) (hs : ScratchGood V st) :
    ScratchGood V (b.foldl (appendTrade grow) st) ∧
    HeapStep V st.heap (b.foldl (appendTrade grow) st).heap := by
  induction b generalizing st with
  | nil => exact ⟨hs, HeapStep.refl V _⟩
  | cons t b ih =>
    obtain ⟨a1, a2⟩ := appendTrade_good V grow st t (hq t (by simp)) hs
    obtain ⟨b1, b2⟩ := ih (appendTrade grow st t) (fun t' ht' => hq t' (by simp [ht'])) a1
    exact ⟨b1, a2.trans b2⟩

theorem CsmGood.heapStep {V : Int → Prop} {h h' : Heap} {csm : ColumnSeriesMap}
    (hc : CsmGood V h csm) (hs : HeapStep V h h') : CsmGood V h' csm :=
  fun k cols c hk hmem => hs _ (hc k cols c hk hmem)

theorem CsmGood.addColumn {V : Int → Prop} {h : Heap} {csm : ColumnSeriesMap}
    (hc : CsmGood V h csm) (key : TimeBucketKey) (name : String) {s : Slice} (hs : Good V h s) :
    CsmGood V h (AddColumn csm key name s) := by
  intro k cols c hk hmem
  by_cases hkk : k = key
  · subst hkk
    rw [mapGet_AddColumn_self] at hk
    cases hk
    rcases List.mem_append.1 hmem with h1 | h1
    · cases hold : mapGet k csm with
      | none => rw [hold] at h1; simp at h1
      | some old =>
        rw [hold] at h1
        exact hc k old c hold h1
    · rw [List.mem_singleton.1 h1]
      exact hs
  · rw [mapGet_AddColumn_of_ne csm hkk] at hk
    exact hc k cols c hk hmem

theorem BucketsIn.drain {V : Int → Prop} {st : WorkerState} (hb : BucketsIn V st)
    (st' : WorkerState) (tbk : TimeBucketKey) (b : Bucket)
    (hd : st'.dataBuckets = mapSet tbk b.drained st.dataBuckets) : BucketsIn V st' := by
  intro k b' y hk hf
  rw [hd] at hk
  by_cases hkk : k = tbk
  · subst hkk
    rw [mapGet_mapSet_self] at hk
    cases hk
    cases b <;> simp [Bucket.drained, Bucket.HasField] at hf
  · rw [mapGet_mapSet_of_ne hkk] at hk
    exact hb k b' y hk hf

/-- What a pass of the loop over the keys keeps, for a set `V` of values: the
fields of the buffered records, the elements of the scratch slices and the
elements of the recorded columns are all in `V`. -/
theorem flushKey_fresh (V : Int → Prop) (grow : Nat → Nat) (s : WorkerState × ColumnSeriesMap)
    (tbk : TimeBucketKey) (hb : BucketsIn V s.1) (hs : ScratchGood V s.1)
    (hc : CsmGood V s.1.heap s.2) :
    BucketsIn V (flushKey grow s tbk).1 ∧ ScratchGood V (flushKey grow s tbk).1 ∧
    CsmGood V (flushKey grow s tbk).1.heap (flushKey grow s tbk).2 := by
  unfold flushKey
  dsimp only
  split
  · exact ⟨hb, hs, hc⟩
  · next b hbk =>
    have hq : ∀ q ∈ b, ∀ y ∈ q.fields, V y := fun q hq y hy =>
      hb tbk (.quotes b) y hbk ⟨q, hq, hy⟩
    obtain ⟨⟨⟨g1, g2, g3, g4⟩, g5, g6, g7, g8⟩, step⟩ := foldl_appendQuote_good V grow b s.1 hq hs
    have hdb := (foldl_appendQuote_fields grow b s.1).1
    split
    · refine ⟨BucketsIn.drain hb _ tbk (.quotes b) (by simp [hdb, Bucket.drained]),
        ⟨⟨g1.trimmed_good, g2.trimmed_good, g3.trimmed_good, g3.trimmed_good.trimmed_good⟩,
          g5, g6.trimmed_good, g7.trimmed_good, g8⟩, ?_⟩
      exact ((((((hc.heapStep step).addColumn tbk "Epoch" g1).addColumn tbk "Nanoseconds"
        g2).addColumn tbk "BidPrice" g3).addColumn tbk "AskPrice" g4).addColumn tbk "BidSize"
        g6).addColumn tbk "AskSize" g7
    · refine ⟨?_, ⟨⟨g1, g2, g3, g4⟩, g5, g6, g7, g8⟩, hc.heapStep step⟩
      intro k b' y hk hf
      rw [hdb] at hk
      exact hb k b' y hk hf
  · next b hbk =>
    have hq : ∀ t ∈ b, ∀ y ∈ t.fields, V y := fun t ht y hy =>
      hb tbk (.trades b) y hbk ⟨t, ht, hy⟩
    obtain ⟨⟨⟨g1, g2, g3, g4⟩, g5, g6, g7, g8⟩, step⟩ := foldl_appendTrade_good V grow b s.1 hq hs
    have hdb := (foldl_appendTrade_fields grow b s.1).1
    split
    · refine ⟨BucketsIn.drain hb _ tbk (.trades b) (by simp [hdb, Bucket.drained]),
        ⟨⟨g1.trimmed_good, g2.trimmed_good, g3, g4⟩,
          g5.trimmed_good, g6, g7, g8.trimmed_good⟩, ?_⟩
      exact ((((hc.heapStep step).addColumn tbk "Epoch" g1).addColumn tbk "Nanoseconds"
        g2).addColumn tbk "Price" g5).addColumn tbk "Size" g8
    · refine ⟨?_, ⟨⟨g1, g2, g3, g4⟩, g5, g6, g7, g8⟩, hc.heapStep step⟩
      intro k b' y hk hf
      rw [hdb] at hk
      exact hb k b' y hk hf

theorem foldl_flushKey_fresh (V : Int → Prop) (grow : Nat → Nat) (l : List TimeBucketKey)
    (s : WorkerState × ColumnSeriesMap) (hb : BucketsIn V s.1) (hs : ScratchGood V s.1)
    (hc : CsmGood V s.1.heap s.2) :
    BucketsIn V (l.foldl (flushKey grow) s).1 ∧ ScratchGood V (l.foldl (flushKey grow) s).1 ∧
    CsmGood V (l.foldl (flushKey grow) s).1.heap (l.foldl (flushKey grow) s).2 := by
  induction l generalizing s with
  | nil => exact ⟨hb, hs, hc⟩
  | cons k l ih =>
    obtain ⟨a, b, c⟩ := flushKey_fresh V grow s k hb hs hc
    exact ih _ a b c

theorem CsmGood.empty (V : Int → Prop) (h : Heap) : CsmGood V h NewColumnSeriesMap := by
  intro k cols c hk
  simp [NewColumnSeriesMap, mapGet] at hk

theorem Reachable.scratchOK {grow : Nat → Nat} {st : WorkerState} (h : Reachable grow st) :
    ScratchGood (fun _ => True) st := by
  induction h with
  | init =>
    have ok : Good (fun _ => True) WorkerState.init.heap Slice.nil :=
      ⟨⟨Nat.le_refl _, Or.inl rfl⟩, fun _ _ => trivial⟩
    exact ⟨⟨ok, ok, ok, ok⟩, ok, ok, ok, ok⟩
  | recv p _ hstep ih =>
    rcases writeRecv_cases _ _ p hstep with h | ⟨b, h, _⟩
    · rw [h]; exact ih
    · rw [h]; exact ih
  | timeout order _ _ ih =>
    exact (foldl_flushKey_fresh _ grow order _ (fun _ _ _ _ _ => trivial) ih
      (CsmGood.empty _ _)).2.1

theorem ScratchGood.of_clear (V : Int → Prop) {st : WorkerState}
    (hs : ScratchGood (fun _ => True) st) (hc : ScratchClear st) : ScratchGood V st := by
  obtain ⟨⟨g1, g2, g3, g4⟩, g5, g6, g7, g8⟩ := hs
  obtain ⟨c1, c2, c3, c4, c5, c6, c7, c8⟩ := hc
  exact ⟨⟨Good.of_len_zero V g1.1 c1, Good.of_len_zero V g2.1 c2, Good.of_len_zero V g3.1 c3,
    Good.of_len_zero V g4.1 c4⟩, Good.of_len_zero V g5.1 c5, Good.of_len_zero V g6.1 c6,
    Good.of_len_zero V g7.1 c7, Good.of_len_zero V g8.1 c8⟩

/-- Every entry of every column a flush cycle hands to the Storage Sink is a
field of a record that was buffered when the cycle started, and so is every
field of a record still buffered after it. -/
theorem flush_entries_buffered (grow : Nat → Nat) (WriteCSM : Batch → Bool)
    (order : List TimeBucketKey) (st : WorkerState) (hr : Reachable grow st) :
    (∀ k cols c y, mapGet k (writeTimeout grow WriteCSM order st).batch = some cols →
      c ∈ cols → y ∈ c.2 → Buffered st y) ∧
    (∀ y, Buffered (writeTimeout grow WriteCSM order st).state y → Buffered st y) := by
  obtain ⟨a, -, c⟩ := foldl_flushKey_fresh (Buffered st) grow order (st, NewColumnSeriesMap)
    (fun k b y hk hf => ⟨k, b, hk, hf⟩)
    (ScratchGood.of_clear _ hr.scratchOK hr.invariant.1) (CsmGood.empty _ _)
  constructor
  · intro k cols col y hk hmem hy
    have hk' : mapGet k (readCSM (flushLoop grow order st).1.heap (flushLoop grow order st).2) =
        some cols := hk
    rw [mapGet_readCSM] at hk'
    cases hcsm : mapGet k (flushLoop grow order st).2 with
    | none => rw [hcsm] at hk'; cases hk'
    | some cs =>
      rw [hcsm] at hk'
      simp only [Option.map_some', Option.some.injEq] at hk'
      subst hk'
      obtain ⟨c0, hc0, rfl⟩ := List.mem_map.1 hmem
      exact (c k cs c0 hcsm hc0).2 y hy
  · rintro y ⟨k, b, hk, hf⟩
    exact a k b y hk hf

theorem writeRecv_buffered (st st' : WorkerState) (p : writePacket)
    (h : writeRecv st p = some st') (y : Int) (hy : Buffered st' y) :
    Buffered st y ∨ y ∈ p.data.fields := by
  obtain ⟨k, b, hk, hf⟩ := hy
  obtain ⟨tbk, data⟩ := p
  by_cases hkk : k = tbk
  · subst hkk
    unfold writeRecv at h
    dsimp only at h
    split at h
    · next bucket hb =>
      split at h
      · split at h
        · next q qs =>
          cases h
          rw [mapGet_mapSet_self] at hk
          cases hk
          obtain ⟨q', hq', hy'⟩ := hf
          rcases List.mem_append.1 hq' with h1 | h1
          · exact Or.inl ⟨k, _, hb, ⟨q', h1, hy'⟩⟩
          · rw [List.mem_singleton.1 h1] at hy'
            exact Or.inr hy'
        · cases h
      · split at h
        · next t ts =>
          cases h
          rw [mapGet_mapSet_self] at hk
          cases hk
          obtain ⟨t', ht', hy'⟩ := hf
          rcases List.mem_append.1 ht' with h1 | h1
          · exact Or.inl ⟨k, _, hb, ⟨t', h1, hy'⟩⟩
          · rw [List.mem_singleton.1 h1] at hy'
            exact Or.inr hy'
        · cases h
      · cases h
        exact Or.inl ⟨k, b, hk, hf⟩
    · next hb =>
      split at h
      · cases h
        rw [mapGet_mapSet_self] at hk
        cases hk
        obtain ⟨q', hq', hy'⟩ := hf
        rw [List.mem_singleton.1 hq'] at hy'
        exact Or.inr hy'
      · cases h
        rw [mapGet_mapSet_self] at hk
        cases hk
        obtain ⟨t', ht', hy'⟩ := hf
        rw [List.mem_singleton.1 ht'] at hy'
        exact Or.inr hy'
      · cases h
        exact Or.inl ⟨k, b, hk, hf⟩
  · left
    rcases writeRecv_cases st st' ⟨tbk, data⟩ h with h1 | ⟨b1, h1, _⟩
    · rw [h1] at hk
      exact ⟨k, b, hk, hf⟩
    · rw [h1] at hk
      simp only at hk
      rw [mapGet_mapSet_of_ne hkk] at hk
      exact ⟨k, b, hk, hf⟩

/-- Every entry of every column of every batch of a run is a field of a record
that was buffered when the run started or was submitted during it. -/
theorem run_entries_fresh (grow : Nat → Nat) (WriteCSM : Batch → Bool) (evs : List Event)
    (st0 st : WorkerState) (batches : List Batch) (hr : Reachable grow st0)
    (ho : OrdersOK grow evs st0) (hrun : write grow WriteCSM evs st0 = (some st, batches)) :
    ∀ batch ∈ batches, ∀ k cols c y, mapGet k batch = some cols → c ∈ cols → y ∈ c.2 →
      Buffered st0 y ∨ SubmittedField evs y := by
  induction evs generalizing st0 batches with
  | nil =>
    simp only [write, Prod.mk.injEq, Option.some.injEq] at hrun
    obtain ⟨-, rfl⟩ := hrun
    intro batch hb
    cases hb
  | cons e evs ih =>
    cases e with
    | packet p =>
      simp only [write] at hrun
      simp only [OrdersOK] at ho
      cases hstep : writeRecv st0 p with
      | none =>
        rw [hstep] at hrun
        simp at hrun
      | some st1 =>
        rw [hstep] at hrun ho
        intro batch hb k cols c y hk hc hy
        rcases ih st1 batches (Reachable.recv p hr hstep) ho hrun batch hb k cols c y hk hc hy
          with h1 | ⟨p', hp', hy'⟩
        · rcases writeRecv_buffered st0 st1 p hstep y h1 with h2 | h2
          · exact Or.inl h2
          · exact Or.inr ⟨p, by simp, h2⟩
        · exact Or.inr ⟨p', by simp [hp'], hy'⟩
    | timeout order =>
      simp only [write, Prod.mk.injEq] at hrun
      obtain ⟨h1, h2⟩ := hrun
      obtain ⟨ho1, ho2⟩ := ho
      obtain ⟨f1, f2⟩ := flush_entries_buffered grow WriteCSM order st0 hr
      have hrest : write grow WriteCSM evs (writeTimeout grow WriteCSM order st0).state =
          (some st, (write grow WriteCSM evs (writeTimeout grow WriteCSM order st0).state).2) := by
        rw [← h1]
      intro batch hb k cols c y hk hc hy
      rw [← h2] at hb
      rcases List.mem_cons.1 hb with hb1 | hb1
      · subst hb1
        exact Or.inl (f1 k cols c y hk hc hy)
      · rcases ih _ _ (Reachable.timeout order hr ho1) ho2 hrest batch hb1 k cols c y hk hc hy
          with h3 | ⟨p', hp', hy'⟩
        · exact Or.inl (f2 y h3)
        · exact Or.inr ⟨p', by simp [hp'], hy'⟩

/-! ## The claim on the failing sink -/

theorem Bucket.not_hasField_of_len_zero {b : Bucket} (h : b.len = 0) (y : Int) :
    ¬ b.HasField y := by
  cases b with
  | quotes qs =>
    have : qs = [] := List.length_eq_zero.mp h
    subst this
    simp [Bucket.HasField]
  | trades ts =>
    have : ts = [] := List.length_eq_zero.mp h
    subst this
    simp [Bucket.HasField]

/-- C7 (a failed write is lost, not retried): in every reachable worker state, for
any two Storage Sinks, in particular one that fails and one that succeeds, a
flush cycle leaves the same worker state; in it every buffer has length 0 and
every scratch slice has length 0, so it keeps no record of the batch; every
continuation of the run passes through the same states and hands over the same
batches whichever sink it was; and in every continuation that completes, under
any sink, the later batches hold for each key exactly as many `Epoch` entries as
records were submitted under the key after the cycle (less those still
buffered), and every entry of every column of every later batch is a field of a
record submitted after the cycle: the records of the failed batch appear in no
later batch. -/
theorem sink_failure_not_retried (grow : Nat → Nat) (sink1 sink2 : Batch → Bool)
    (order : List TimeBucketKey) (st : WorkerState) (hr : Reachable grow st)
    (ho : RangeOrder order st.dataBuckets) :
    (writeTimeout grow sink1 order st).state = (writeTimeout grow sink2 order st).state ∧
    (∀ k b, mapGet k (writeTimeout grow sink1 order st).state.dataBuckets = some b → b.len = 0) ∧
    ScratchClear (writeTimeout grow sink1 order st).state ∧
    (∀ evs, write grow sink1 evs (writeTimeout grow sink1 order st).state =
      write grow sink2 evs (writeTimeout grow sink2 order st).state) ∧
    (∀ sink evs st' batches, OrdersOK grow evs (writeTimeout grow sink1 order st).state →
      write grow sink evs (writeTimeout grow sink1 order st).state = (some st', batches) →
      (∀ k, submittedUnder k evs = (columnOver batches k "Epoch").length + bufferLen k st') ∧
      (∀ batch ∈ batches, ∀ k cols c y, mapGet k batch = some cols → c ∈ cols → y ∈ c.2 →
        SubmittedField evs y)) := by
  have hempty : ∀ k b, mapGet k (writeTimeout grow sink1 order st).state.dataBuckets = some b →
      b.len = 0 := by
    intro k b hb
    have hb' : mapGet k (order.foldl (flushKey grow) (st, NewColumnSeriesMap)).1.dataBuckets =
        some b := hb
    have hk : k ∈ order := by
      have h1 : k ∈ mapKeys (order.foldl (flushKey grow) (st, NewColumnSeriesMap)).1.dataBuckets :=
        (mem_mapKeys_iff k _).2 ⟨b, hb'⟩
      rw [foldl_flushKey_mapKeys] at h1
      exact (ho.mem_iff k).2 h1
    exact foldl_flushKey_len_zero grow order _ k (Or.inl hk) hb'
  have hr1 : Reachable grow (writeTimeout grow sink1 order st).state :=
    Reachable.timeout order hr ho
  refine ⟨rfl, hempty, hr1.invariant.1, fun evs => write_sink_irrelevant grow sink1 sink2 evs _,
    fun sink evs st' batches hord hrun => ⟨fun k => ?_, fun batch hb k cols c y hk hc hy => ?_⟩⟩
  · have h1 := records_conserved_from grow sink k evs _ st' batches hr1 hord hrun
    have h2 := (flush_epoch_length grow sink1 order st k hr ho).2
    omega
  · rcases run_entries_fresh grow sink evs _ st' batches hr1 hord hrun batch hb k cols c y hk hc hy
      with ⟨k', b', hk', hf'⟩ | h
    · exact absurd hf' (Bucket.not_hasField_of_len_zero (hempty k' b' hk') y)
    · exact h

/-- Witness of C7: a failing and a succeeding sink on the worker that received one
quote under `K`. -/
theorem sink_failure_not_retried_witness :
    (writeTimeout growDouble sinkFail ["K"] stOneQuote).state =
      (writeTimeout growDouble sinkOk ["K"] stOneQuote).state ∧
    (∀ k b, mapGet k (writeTimeout growDouble sinkFail ["K"] stOneQuote).state.dataBuckets =
      some b → b.len = 0) ∧
    ScratchClear (writeTimeout growDouble sinkFail ["K"] stOneQuote).state ∧
    (∀ evs, write growDouble sinkFail evs (writeTimeout growDouble sinkFail ["K"] stOneQuote).state =
      write growDouble sinkOk evs (writeTimeout growDouble sinkOk ["K"] stOneQuote).state) ∧
    (∀ sink evs st' batches,
      OrdersOK growDouble evs (writeTimeout growDouble sinkFail ["K"] stOneQuote).state →
      write growDouble sink evs (writeTimeout growDouble sinkFail ["K"] stOneQuote).state =
        (some st', batches) →
      (∀ k, submittedUnder k evs = (columnOver batches k "Epoch").length + bufferLen k st') ∧
      (∀ batch ∈ batches, ∀ k cols c y, mapGet k batch = some cols → c ∈ cols → y ∈ c.2 →
        SubmittedField evs y)) :=
  sink_failure_not_retried growDouble sinkFail sinkOk ["K"] stOneQuote
    (Reachable.recv ⟨"K", .quote (exQuote 1000)⟩ Reachable.init rfl) (List.Perm.refl _)

end handlers
